import Mathlib

/-!
Verification of the WasteLess recipe-recommendation engine
(`src/backend/src/utils/maxFlow.ts` and
`src/backend/src/services/RecipeRecommendationService.ts`).

Modelling conventions for the shallow embedding:
* JavaScript numbers are modelled as exact rationals (`ℚ`).  The three
  library functions `Math.pow`, `Math.sqrt` and `Math.log10`, whose exact
  IEEE results are not rational-definable, are supplied as an explicit
  parameter record `JsMath`; theorems that depend on properties of these
  functions state those properties as hypotheses, and concrete runs fix a
  reference model whose values agree with JavaScript at every point the
  run actually inspects.
* `Math.random()` results are threaded in as explicit parameters
  (one rational per call site, each in `[0, 1)`).
* JavaScript objects used as string-keyed edge maps are modelled as
  association lists with JS-object update semantics (an existing key is
  overwritten in place, a new key is appended).  Edge keys
  `"a-b"` are modelled as the pair `(a, b)`; the vertex names produced by
  `buildFlowNetwork` never contain a dash, so the translation is faithful.
* Falsy-coalescing expressions `x || d` on numbers/strings are modelled by
  explicit helpers (`0`, `""`, `null` and `undefined` are falsy).
* The Mongoose/date-fns layer of `getRecommendedRecipes` is modelled by
  passing the inventory and recipe collections as lists, with the
  `differenceInDays(expiryDate, today)` result precomputed per ingredient.
-/

/-- JS `x || d` for numbers: `0` (and `NaN`, unrepresentable here) is falsy. -/
def jsOrQ (x d : ℚ) : ℚ := if x = 0 then d else x

/-- JS `x || d` where `x` is a possibly-absent number. -/
def jsOrQOpt (o : Option ℚ) (d : ℚ) : ℚ :=
  match o with
  | none => d
  | some v => jsOrQ v d

/-- JS `s || d` for strings: the empty string is falsy. -/
def jsOrStr (s d : String) : String := if s = "" then d else s

/-- JS `s || d` where `s` is a possibly-absent string. -/
def jsOrStrOpt (o : Option String) (d : String) : String :=
  match o with
  | none => d
  | some s => jsOrStr s d

/-- JS `Math.round`: rounds half toward positive infinity. -/
def jsRound (q : ℚ) : ℚ := ((⌊q + 1/2⌋ : ℤ) : ℚ)

/-- JS `Math.floor` on a rational value. -/
def jsFloor (q : ℚ) : ℚ := ((⌊q⌋ : ℤ) : ℚ)

/-- ASCII lower-casing of one character, as `String.prototype.toLowerCase`
acts on the ASCII range (all strings in this code base are ASCII). -/
def charLower (c : Char) : Char :=
  if 'A' ≤ c ∧ c ≤ 'Z' then Char.ofNat (c.toNat + 32) else c

/-- JS `toLowerCase` on an ASCII string. -/
def jsToLower (s : String) : String := ⟨s.data.map charLower⟩

/-- Whitespace characters matched by the regex class `\s` (ASCII part). -/
def isWsChar (c : Char) : Bool :=
  c = ' ' || c = '\t' || c = '\n' || c = '\r' || c = '\x0b' || c = '\x0c'

/-- Word characters of the regex class `\w`: `[A-Za-z0-9_]`. -/
def isWordChar (c : Char) : Bool :=
  c.isAlpha || c.isDigit || c = '_'

/-- Does `hay` start with `sub`? (helper for JS `String.prototype.includes`). -/
def listStartsWith : List Char → List Char → Bool
  | _, [] => true
  | [], _ :: _ => false
  | a :: as, b :: bs => a = b && listStartsWith as bs

/-- JS `hay.includes(sub)` on character lists. -/
def listContainsSub : List Char → List Char → Bool
  | [], sub => listStartsWith [] sub
  | c :: rest, sub => listStartsWith (c :: rest) sub || listContainsSub rest sub

/-- JS `s.includes(t)` on strings. -/
def jsIncludes (s t : String) : Bool := listContainsSub s.data t.data

/-- The replacement `/\s+/g → " "`: every maximal whitespace run becomes a
single space. -/
def collapseWs : List Char → List Char
  | [] => []
  | c :: rest =>
    if isWsChar c then
      match rest with
      | [] => [' ']
      | d :: _ => if isWsChar d then collapseWs rest else ' ' :: collapseWs rest
    else c :: collapseWs rest

/-- Does the word-token `tok` (all word characters) match at the head of `cs`
with `\b` boundaries on both sides?  `prev` is the character preceding `cs`
in the original string. -/
def wordTokAt (prev : Option Char) (cs : List Char) (tok : List Char) : Bool :=
  listStartsWith cs tok &&
  (match prev with
   | none => true
   | some p => !isWordChar p) &&
  (match cs.drop tok.length with
   | [] => true
   | d :: _ => !isWordChar d)

/-- Does the token `&` match at the head of `cs` with `\b` boundaries?
Since `&` is a non-word character, both neighbours must be word characters. -/
def ampTokAt (prev : Option Char) (cs : List Char) : Bool :=
  (match cs with
   | c :: _ => c = '&'
   | [] => false) &&
  (match prev with
   | some p => isWordChar p
   | none => false) &&
  (match cs.drop 1 with
   | d :: _ => isWordChar d
   | [] => false)

/-- The replacement `/\b(of|the|and|&)\b/g → ""` scanning left to right on
the original string, alternatives tried in order at each position. -/
def removeFiller : Option Char → List Char → List Char
  | _, [] => []
  | prev, c :: rest =>
    if wordTokAt prev (c :: rest) ['o', 'f'] then
      removeFiller (some 'f') (rest.drop 1)
    else if wordTokAt prev (c :: rest) ['t', 'h', 'e'] then
      removeFiller (some 'e') (rest.drop 2)
    else if wordTokAt prev (c :: rest) ['a', 'n', 'd'] then
      removeFiller (some 'd') (rest.drop 2)
    else if ampTokAt prev (c :: rest) then
      removeFiller (some '&') rest
    else
      c :: removeFiller (some c) rest
termination_by _ l => l.length
decreasing_by
  all_goals simp [List.length_drop]
  all_goals omega

/-- The punctuation characters removed by `/[.,;:!?'"()]/g`
(the apostrophe and double quote written by code point). -/
def punctChars : List Char :=
  ['.', ',', ';', ':', '!', '?', Char.ofNat 39, Char.ofNat 34, '(', ')']

/-- JS `String.prototype.trim` (ASCII whitespace). -/
def trimWs (cs : List Char) : List Char :=
  ((cs.dropWhile isWsChar).reverse.dropWhile isWsChar).reverse

/-- The ingredient-name normalisation closure inside
`findBestIngredientMatch`: lower-case, collapse whitespace, drop filler
words, strip punctuation, trim. -/
def normalizeChars (cs : List Char) : List Char :=
  trimWs ((removeFiller none (collapseWs (cs.map charLower))).filter
    (fun c => !punctChars.contains c))

/-- String-level wrapper of `normalizeChars`. -/
def normalizeIngredient (s : String) : String := ⟨normalizeChars s.data⟩

/-- JS `str.split(' ')` (single-character separator, adjacent separators
yield empty fragments). -/
def splitOnSpace : List Char → List (List Char)
  | [] => [[]]
  | c :: rest =>
    let r := splitOnSpace rest
    if c = ' ' then [] :: r
    else
      match r with
      | [] => [[c]]
      | h :: t => (c :: h) :: t

/-- De-duplication via `[...new Set(xs)]`: keeps first occurrences in order. -/
def jsDedup {α : Type} [DecidableEq α] : List α → List α :=
  go []
where
  go (seen : List α) : List α → List α
    | [] => []
    | x :: xs => if x ∈ seen then go seen xs else x :: go (x :: seen) xs

/-- The `Math.pow` / `Math.sqrt` / `Math.log10` library functions, supplied
as a parameter of the embedding (their IEEE results are rationals, but not
rational-definable functions). -/
structure JsMath where
  pow : ℚ → ℚ → ℚ
  sqrt : ℚ → ℚ
  log10 : ℚ → ℚ

-- ---------------------------------------------------------------------------
-- Data model (interfaces of maxFlow.ts)
-- ---------------------------------------------------------------------------

/-- interface `WeightedIngredient.originalIngredient`. -/
structure OriginalIngredient where
  quantity : Option ℚ
  unit : Option String
  deriving DecidableEq

/-- interface `WeightedIngredient`. -/
structure WeightedIngredient where
  id : String
  name : String
  weight : ℚ
  daysUntilExpiry : ℚ
  originalIngredient : Option OriginalIngredient
  deriving DecidableEq

/-- interface `Recipe` (algorithm view). -/
structure Recipe where
  id : String
  title : String
  image : Option String
  ingredients : List String
  instructions : List String
  mealType : String
  score : Option ℚ
  deriving DecidableEq

/-- interface `Edge` of the flow network, with every annotation field. -/
structure Edge where
  capacity : ℚ
  flow : ℚ
  expiryWeight : Option ℚ
  matchQuality : Option ℚ
  matchedWith : Option (Option String)
  quantity : Option ℚ
  unit : Option String
  quantityFactor : Option ℚ
  recipeScore : Option ℚ
  matchedIngredientsCount : Option ℕ
  totalRecipeIngredients : Option ℕ
  coverageRatio : Option ℚ
  mealTypeBoost : Option ℚ
  totalImportance : Option ℚ
  matchedIngredients : Option (List String)
  normalizedQuantity : Option ℚ
  daysUntilExpiry : Option ℚ
  nutritionBoost : Option ℚ
  nutritionCategory : Option String
  balancedMealBoost : Option ℚ
  deriving DecidableEq

/-- An edge holding only capacity and flow, every annotation absent. -/
def Edge.base (cap fl : ℚ) : Edge :=
  { capacity := cap, flow := fl, expiryWeight := none, matchQuality := none,
    matchedWith := none, quantity := none, unit := none,
    quantityFactor := none, recipeScore := none,
    matchedIngredientsCount := none, totalRecipeIngredients := none,
    coverageRatio := none, mealTypeBoost := none, totalImportance := none,
    matchedIngredients := none, normalizedQuantity := none,
    daysUntilExpiry := none, nutritionBoost := none,
    nutritionCategory := none, balancedMealBoost := none }

/-- Edge keys `"a-b"` modelled as vertex pairs. -/
abbrev EdgeKey := String × String

/-- A JS object `Record<string, Edge>` as an ordered association list. -/
abbrev EdgeMap := List (EdgeKey × Edge)

/-- JS object read `edges[k]`. -/
def getEdge (es : EdgeMap) (k : EdgeKey) : Option Edge := List.lookup k es

/-- JS object write `edges[k] = e`: overwrite in place or append. -/
def setEdge : EdgeMap → EdgeKey → Edge → EdgeMap
  | [], k, e => [(k, e)]
  | (k0, e0) :: rest, k, e =>
    if k0 = k then (k0, e) :: rest else (k0, e0) :: setEdge rest k e

/-- In-place `edges[k].flow += d` (no-op on a missing key, which in the
source would throw and is unreachable from `edmondsKarp`). -/
def addFlowAt (es : EdgeMap) (k : EdgeKey) (d : ℚ) : EdgeMap :=
  es.map (fun p => if p.1 = k then (p.1, { p.2 with flow := p.2.flow + d }) else p)

/-- interface `FlowNetwork`. -/
structure FlowNetwork where
  vertices : List String
  edges : EdgeMap
  filteredRecipes : Option (List Recipe)
  preferredMealType : Option String
  deriving DecidableEq

/-- interface `IngredientMatch`. -/
structure IngredientMatch where
  ingredient : Option String
  quality : ℚ
  deriving DecidableEq

/-- interface `RecipeScoreResult`. -/
structure RecipeScoreResult where
  id : String
  title : String
  image : Option String
  score : ℚ
  mealType : String
  usedIngredients : List String
  missedIngredients : List String
  instructions : List String
  matchCount : Option ℕ
  totalIngredients : Option ℕ
  expiringIngredients : Option ℕ
  deriving DecidableEq

/-- interface `UsedIngredientWithExpiry`. -/
structure UsedIngredientWithExpiry where
  id : String
  name : String
  daysUntilExpiry : ℚ
  matchQuality : ℚ
  matchedWith : Option String
  quantity : ℚ
  unit : String
  quantityFactor : ℚ
  deriving DecidableEq

/-- interface `EdmondsKarpResult`. -/
structure EdmondsKarpResult where
  flow : ℚ
  flowPaths : List (List String)
  deriving DecidableEq

/-- The nutrition info record passed to `calculateRecipeScore`. -/
structure NutritionInfo where
  categories : List String
  boosts : List (String × ℚ)
  deriving DecidableEq

-- ---------------------------------------------------------------------------
-- maxFlow.ts: pure helper functions
-- ---------------------------------------------------------------------------

/-- function `normalizeQuantity` (maxFlow.ts lines 409-426). -/
def normalizeQuantity (quantity : ℚ) (unit : String) : ℚ :=
  let u := jsToLower unit
  if u = "kilo" ∨ u = "kg" then quantity * 1000
  else if u = "liter" ∨ u = "l" then quantity * 1000
  else if u = "tbsp" then quantity * 15
  else if u = "tsp" then quantity * 5
  else if u = "cup" then quantity * 240
  else quantity

/-- function `calculateExpiryFactor` (lines 429-432). -/
def calculateExpiryFactor (daysUntilExpiry : ℚ) : ℚ :=
  if daysUntilExpiry ≤ 7 then 5 else 1

/-- The per-recipe-ingredient match quality computed by the body of the
loop in `findBestIngredientMatch` (lines 460-524): exact tier, containment
tier, then word tier. -/
def matchQualityFor (invN : List Char) (recipeIng : String) : ℚ :=
  let recN := normalizeChars recipeIng.data
  if recN = invN then 1
  else if listContainsSub recN invN || listContainsSub invN recN then
    let a : ℚ := (invN.length : ℚ)
    let b : ℚ := (recN.length : ℚ)
    7/10 + min (a / b) (b / a) * (1/4)
  else
    let invWords := (splitOnSpace invN).filter (fun w => 2 < w.length)
    let recWords := (splitOnSpace recN).filter (fun w => 2 < w.length)
    invWords.foldl (fun q iw =>
      recWords.foldl (fun q2 rw =>
        if iw = rw || (4 < iw.length && listContainsSub rw iw)
            || (4 < rw.length && listContainsSub iw rw) then
          max q2 (min (9/10) (6/10 + (iw.length : ℚ) * (1/20)))
        else q2) q) 0

/-- function `findBestIngredientMatch` (lines 435-533). -/
def findBestIngredientMatch (ingredientName : String)
    (recipeIngredients : List String) : IngredientMatch :=
  let invN := normalizeChars ingredientName.data
  let st := recipeIngredients.foldl
    (fun (acc : Option String × ℚ) recipeIng =>
      let q := matchQualityFor invN recipeIng
      if acc.2 < q then (some recipeIng, q) else acc)
    (none, 0)
  { ingredient := st.1, quality := st.2 }

/-- function `calculateIngredientWeight` (lines 536-551). -/
def calculateIngredientWeight (baseWeight expiryFactor matchQuality
    mealTypeBoost quantityFactor : ℚ) : ℚ :=
  baseWeight * (2/10) + expiryFactor * (45/100) + matchQuality * (15/100) +
    mealTypeBoost * (2/10) * quantityFactor

/-- The element type accumulated in `matchedIngredients` inside
`buildFlowNetwork`. -/
structure MatchedIngredientInfo where
  base : WeightedIngredient
  adjustedWeight : ℚ
  matchQuality : ℚ
  matchedWith : String
  quantityFactor : ℚ
  deriving DecidableEq

/-- function `calculateRecipeImportance` (lines 554-580). -/
def calculateRecipeImportance (matchedIngredients : List MatchedIngredientInfo)
    (mealTypeBoost : ℚ) (totalIngredients : ℕ) : ℚ :=
  if matchedIngredients.length = 0 then (1/10) * mealTypeBoost
  else
    let totalUrgency := matchedIngredients.foldl
      (fun acc ing =>
        acc + jsOrQ ing.adjustedWeight 1 *
          (max 1 (10 - ing.base.daysUntilExpiry) / 10)) 0
    let matchPercentage : ℚ :=
      (matchedIngredients.length : ℚ) / (totalIngredients : ℚ)
    (totalUrgency * (6/10) + matchPercentage * (4/10)) * mealTypeBoost

-- ---------------------------------------------------------------------------
-- buildFlowNetwork and addNutritionNodes (maxFlow.ts lines 106-406)
-- ---------------------------------------------------------------------------

/-- The nutrition categories of `addNutritionNodes`. -/
def nutritionCategories : List String := ["protein", "vegetables", "grains", "dairy"]

/-- The keyword table of `addNutritionNodes`. -/
def nutritionKeywords (category : String) : List String :=
  if category = "protein" then
    ["meat", "chicken", "beef", "pork", "fish", "tofu", "lentil", "bean",
     "egg", "nuts", "seed", "protein"]
  else if category = "vegetables" then
    ["vegetable", "carrot", "broccoli", "spinach", "kale", "tomato", "pepper",
     "onion", "lettuce", "cabbage", "zucchini", "eggplant", "cucumber", "avocado"]
  else if category = "grains" then
    ["rice", "pasta", "bread", "flour", "oat", "grain", "wheat", "quinoa",
     "barley", "cereal", "corn", "couscous", "tortilla"]
  else if category = "dairy" then
    ["milk", "cheese", "yogurt", "cream", "butter", "dairy", "cheddar",
     "mozzarella", "parmesan"]
  else []

/-- How many ingredients of recipe `r` mention a keyword of `category`. -/
def nutritionMatchCount (category : String) (r : Recipe) : ℕ :=
  (r.ingredients.filter (fun ing =>
    (nutritionKeywords category).any (fun kw =>
      jsIncludes (jsToLower ing) kw))).length

/-- The nutrition edge written for one category/recipe pair. -/
def nutritionEdge (category : String) (matchCount : ℕ) : Edge :=
  { Edge.base (matchCount : ℚ) 0 with
    nutritionBoost := some (min (3/2) (8/10 + (matchCount : ℚ) * (2/10))),
    nutritionCategory := some category }

/-- Adds the edges of one nutrition category over all filtered recipes. -/
def nutritionCategoryEdges (category : String) (recipes : List Recipe)
    (es0 : EdgeMap) : EdgeMap :=
  recipes.foldl (fun es r =>
    let matchCount := nutritionMatchCount category r
    if 0 < matchCount then
      setEdge es ("n_" ++ category, "r_" ++ r.id) (nutritionEdge category matchCount)
    else es) es0

/-- The balanced-meal edge written for one recipe. -/
def balancedEdge (present : ℕ) : Edge :=
  { Edge.base (present : ℚ) 0 with
    balancedMealBoost := some (1 + (present : ℚ) * (2/10)) }

/-- Adds the balanced-meal edges over all filtered recipes. -/
def balancedMealEdges (recipes : List Recipe) (es0 : EdgeMap) : EdgeMap :=
  recipes.foldl (fun es r =>
    let present := (nutritionCategories.filter (fun category =>
      (getEdge es ("n_" ++ category, "r_" ++ r.id)).isSome)).length
    if 2 ≤ present then
      setEdge es ("balanced_meal", "r_" ++ r.id) (balancedEdge present)
    else es) es0

/-- function `addNutritionNodes` (lines 262-406). -/
def addNutritionNodes (network : FlowNetwork) : FlowNetwork :=
  let recipes := network.filteredRecipes.getD []
  let vertices1 := network.vertices ++ nutritionCategories.map (fun c => "n_" ++ c)
  let edges1 := nutritionCategories.foldl
    (fun es category => nutritionCategoryEdges category recipes es) network.edges
  let vertices2 := vertices1 ++ ["balanced_meal"]
  let edges2 := balancedMealEdges recipes edges1
  { network with vertices := vertices2, edges := edges2 }

/-- The quantity read out of `originalIngredient` (`parseFloat` of the
`toString`, defaulting to `"1"`). -/
def ingQuantity (ing : WeightedIngredient) : ℚ :=
  ((ing.originalIngredient.getD ⟨none, none⟩).quantity).getD 1

/-- The unit read out of `originalIngredient` (`|| 'unit'`). -/
def ingUnit (ing : WeightedIngredient) : String :=
  jsOrStrOpt (ing.originalIngredient.getD ⟨none, none⟩).unit "unit"

/-- The source edge written for one inventory ingredient. -/
def sourceEdgeFor (ing : WeightedIngredient) : Edge :=
  let normalizedQuantity := normalizeQuantity (ingQuantity ing) (ingUnit ing)
  { Edge.base normalizedQuantity 0 with
    expiryWeight :=
      some (ing.weight * calculateExpiryFactor ing.daysUntilExpiry),
    normalizedQuantity := some normalizedQuantity,
    daysUntilExpiry := some ing.daysUntilExpiry }

/-- The source-to-ingredient edges (lines 132-148). -/
def buildSourceEdges (weightedIngredients : List WeightedIngredient) : EdgeMap :=
  weightedIngredients.foldl
    (fun es ing => setEdge es ("s", "i_" ++ ing.id) (sourceEdgeFor ing)) []

/-- The meal-type boost used in `buildFlowNetwork` and again in
`findOptimalRecipeWithAlternatives` (2.5 / 1.2 / 0.8). -/
def mealTypeBoostFor (preferredMealType mealType : String) : ℚ :=
  if mealType = preferredMealType then 5/2
  else if mealType = "any" then 6/5
  else 4/5

/-- The ingredient-to-recipe edge written on a sufficient match. -/
def ingredientRecipeEdge (M : JsMath) (ing : WeightedIngredient)
    (bestMatch : IngredientMatch) (mealTypeBoost : ℚ) : Edge :=
  let normalizedQuantity := normalizeQuantity (ingQuantity ing) (ingUnit ing)
  let expiryFactor := calculateExpiryFactor ing.daysUntilExpiry
  let quantityFactor := min 3 (M.log10 (normalizedQuantity + 1) + 1)
  let adjustedWeight := calculateIngredientWeight ing.weight
    expiryFactor bestMatch.quality mealTypeBoost quantityFactor
  { Edge.base normalizedQuantity 0 with
    expiryWeight := some adjustedWeight,
    matchQuality := some bestMatch.quality,
    matchedWith := some bestMatch.ingredient,
    quantity := some (ingQuantity ing),
    unit := some (ingUnit ing),
    quantityFactor := some quantityFactor }

/-- The matched-ingredient record pushed alongside the edge. -/
def matchedInfoFor (M : JsMath) (ing : WeightedIngredient)
    (bestMatch : IngredientMatch) (mealTypeBoost : ℚ) : MatchedIngredientInfo :=
  let normalizedQuantity := normalizeQuantity (ingQuantity ing) (ingUnit ing)
  let expiryFactor := calculateExpiryFactor ing.daysUntilExpiry
  let quantityFactor := min 3 (M.log10 (normalizedQuantity + 1) + 1)
  { base := ing,
    adjustedWeight := calculateIngredientWeight ing.weight
      expiryFactor bestMatch.quality mealTypeBoost quantityFactor,
    matchQuality := bestMatch.quality,
    matchedWith := jsOrStrOpt bestMatch.ingredient "",
    quantityFactor := quantityFactor }

/-- The inner loop over inventory ingredients for one recipe
(lines 168-219). -/
def recipeIngredientScan (M : JsMath) (r : Recipe) (mealTypeBoost : ℚ)
    (weightedIngredients : List WeightedIngredient) (es0 : EdgeMap) :
    EdgeMap × List MatchedIngredientInfo :=
  weightedIngredients.foldl
    (fun (acc : EdgeMap × List MatchedIngredientInfo) ingredient =>
      let bestMatch :=
        findBestIngredientMatch (jsToLower ingredient.name) r.ingredients
      if 6/10 ≤ bestMatch.quality then
        (setEdge acc.1 ("i_" ++ ingredient.id, "r_" ++ r.id)
          (ingredientRecipeEdge M ingredient bestMatch mealTypeBoost),
         acc.2 ++ [matchedInfoFor M ingredient bestMatch mealTypeBoost])
      else acc)
    (es0, ([] : List MatchedIngredientInfo))

/-- The recipe-to-sink edge (lines 221-246). -/
def recipeSinkEdge (r : Recipe) (mealTypeBoost : ℚ)
    (matched : List MatchedIngredientInfo) : Edge :=
  let totalRecipeIngredients : ℕ :=
    if r.ingredients.length = 0 then 1 else r.ingredients.length
  let coverageRatio : ℚ :=
    min 1 ((matched.length : ℚ) / (totalRecipeIngredients : ℚ))
  { Edge.base (coverageRatio * 100) 0 with
    recipeScore := some (jsOrQOpt r.score 0),
    matchedIngredientsCount := some matched.length,
    totalRecipeIngredients := some totalRecipeIngredients,
    coverageRatio := some coverageRatio,
    mealTypeBoost := some mealTypeBoost,
    totalImportance := some (calculateRecipeImportance matched mealTypeBoost
      totalRecipeIngredients),
    matchedIngredients := some (matched.map (fun m => m.base.name)) }

/-- Processing of one filtered recipe inside `buildFlowNetwork`. -/
def recipeStep (M : JsMath) (preferredMealType : String)
    (weightedIngredients : List WeightedIngredient) (es : EdgeMap)
    (r : Recipe) : EdgeMap :=
  let mealTypeBoost := mealTypeBoostFor preferredMealType r.mealType
  let st := recipeIngredientScan M r mealTypeBoost weightedIngredients es
  setEdge st.1 ("r_" ++ r.id, "t") (recipeSinkEdge r mealTypeBoost st.2)

/-- The meal-type filtering of the recipe list (lines 117-123). -/
def filterRecipesByMealType (recipes : List Recipe)
    (preferredMealType : String) : List Recipe :=
  if preferredMealType ≠ "any" then
    recipes.filter (fun r =>
      r.mealType = preferredMealType ∨ r.mealType = "any")
  else recipes

/-- function `buildFlowNetwork` (lines 106-259). -/
def buildFlowNetwork (M : JsMath) (weightedIngredients : List WeightedIngredient)
    (recipes : List Recipe) (preferredMealType : String) : FlowNetwork :=
  let filteredRecipes := filterRecipesByMealType recipes preferredMealType
  let vertices :=
    (["s", "t"] ++ weightedIngredients.map (fun ing => "i_" ++ ing.id)) ++
      filteredRecipes.map (fun r => "r_" ++ r.id)
  let edges1 := filteredRecipes.foldl
    (recipeStep M preferredMealType weightedIngredients)
    (buildSourceEdges weightedIngredients)
  addNutritionNodes
    { vertices := vertices, edges := edges1,
      filteredRecipes := some filteredRecipes,
      preferredMealType := some preferredMealType }

-- ---------------------------------------------------------------------------
-- BFS (maxFlow.ts lines 1075-1120)
-- ---------------------------------------------------------------------------

/-- The internal state of the BFS loop: pending queue, visited record and
parent map. -/
structure BfsState where
  queue : List String
  visited : List String
  parent : List (String × String)
  deriving DecidableEq

/-- The residual-admissibility test `edge && edge.capacity > edge.flow`. -/
def edgeOpen (edges : EdgeMap) (k : EdgeKey) : Bool :=
  match getEdge edges k with
  | some e => decide (e.flow < e.capacity)
  | none => false

/-- One pass over all vertices from the dequeued vertex `current`,
marking and enqueueing newly reachable vertices. -/
def bfsScan (edges : EdgeMap) (current : String) (vertices : List String)
    (st : BfsState) : BfsState :=
  vertices.foldl (fun st v =>
    if v ∈ st.visited then st
    else if edgeOpen edges (current, v) then
      { queue := st.queue ++ [v], visited := st.visited ++ [v],
        parent := st.parent ++ [(v, current)] }
    else st) st

/-- Path reconstruction by following the parent map from the sink back to
the source (the `while (node !== source)` loop), with explicit fuel. -/
def reconstructPath (parent : List (String × String)) (source : String) :
    String → ℕ → Option (List String)
  | _, 0 => none
  | node, fuel + 1 =>
    if node = source then some [source]
    else
      match List.lookup node parent with
      | some p => (reconstructPath parent source p fuel).map (fun l => l ++ [node])
      | none => none

/-- Characterisation of one `bfsScan` pass: it appends a duplicate-free
batch of fresh vertices to the queue, the visited record and (paired with
`current`) the parent map. -/
theorem bfsScan_shape (edges : EdgeMap) (current : String) :
    ∀ (vertices : List String) (st : BfsState),
    ∃ adds : List String,
      bfsScan edges current vertices st =
        { queue := st.queue ++ adds, visited := st.visited ++ adds,
          parent := st.parent ++ adds.map (fun a => (a, current)) } ∧
      adds.Nodup ∧
      ∀ a ∈ adds, a ∉ st.visited ∧ a ∈ vertices ∧
        edgeOpen edges (current, a) = true := by
  intro vertices
  induction vertices with
  | nil =>
    intro st
    refine ⟨[], ?_, by simp, by simp⟩
    simp [bfsScan]
  | cons v vs ih =>
    intro st
    by_cases hv : v ∈ st.visited
    · obtain ⟨adds, heq, hnd, hprop⟩ := ih st
      refine ⟨adds, ?_, hnd, ?_⟩
      · simpa [bfsScan, hv] using heq
      · intro a ha
        obtain ⟨h1, h2, h3⟩ := hprop a ha
        exact ⟨h1, List.mem_cons_of_mem _ h2, h3⟩
    · by_cases he : edgeOpen edges (current, v) = true
      · obtain ⟨adds, heq, hnd, hprop⟩ :=
          ih ⟨st.queue ++ [v], st.visited ++ [v], st.parent ++ [(v, current)]⟩
        refine ⟨v :: adds, ?_, ?_, ?_⟩
        · have : bfsScan edges current (v :: vs) st =
              bfsScan edges current vs
                ⟨st.queue ++ [v], st.visited ++ [v], st.parent ++ [(v, current)]⟩ := by
            simp [bfsScan, hv, he]
          rw [this, heq]
          simp
        · refine List.nodup_cons.2 ⟨?_, hnd⟩
          intro hva
          have := (hprop v hva).1
          simp at this
        · intro a ha
          rcases List.mem_cons.1 ha with rfl | ha2
          · exact ⟨hv, List.mem_cons_self _ _, he⟩
          · obtain ⟨h1, h2, h3⟩ := hprop a ha2
            refine ⟨?_, List.mem_cons_of_mem _ h2, h3⟩
            intro hmem
            exact h1 (by simp [hmem])
      · obtain ⟨adds, heq, hnd, hprop⟩ := ih st
        refine ⟨adds, ?_, hnd, ?_⟩
        · simpa [bfsScan, hv, he] using heq
        · intro a ha
          obtain ⟨h1, h2, h3⟩ := hprop a ha
          exact ⟨h1, List.mem_cons_of_mem _ h2, h3⟩

/-- Marking one fresh vertex strictly shrinks the unvisited filter. -/
theorem filter_snoc_lt (vs visited : List String) (a : String)
    (ha : a ∈ vs) (hnv : a ∉ visited) :
    (vs.filter (fun v => decide (v ∉ visited ++ [a]))).length <
      (vs.filter (fun v => decide (v ∉ visited))).length := by
  have hpred : ∀ v : String,
      (decide (v ∉ visited ++ [a])) =
        ((¬ v = a : Bool) && decide (v ∉ visited)) := by
    intro v
    by_cases h1 : v = a <;> by_cases h2 : v ∈ visited <;> simp [h1, h2]
  have hrw : vs.filter (fun v => decide (v ∉ visited ++ [a])) =
      (vs.filter (fun v => decide (v ∉ visited))).filter (fun v => (¬ v = a : Bool)) := by
    rw [List.filter_filter]
    exact List.filter_congr (fun v _ => by rw [hpred v, Bool.and_comm])
  rw [hrw]
  refine List.length_filter_lt_length_iff_exists.2 ⟨a, ?_, by simp⟩
  exact List.mem_filter.2 ⟨ha, by simp [hnv]⟩

/-- Marking a fresh duplicate-free batch shrinks the unvisited filter by at
least the batch size. -/
theorem filter_fresh_le (vs : List String) :
    ∀ (adds visited : List String), adds.Nodup →
    (∀ a ∈ adds, a ∉ visited) → (∀ a ∈ adds, a ∈ vs) →
    (vs.filter (fun v => decide (v ∉ visited ++ adds))).length + adds.length ≤
      (vs.filter (fun v => decide (v ∉ visited))).length := by
  intro adds
  induction adds with
  | nil => intro visited _ _ _; simp
  | cons a rest ih =>
    intro visited hnd hfresh hsub
    have hstrict := filter_snoc_lt vs visited a (hsub a (by simp)) (hfresh a (by simp))
    have hih := ih (visited ++ [a]) (List.nodup_cons.1 hnd).2
      (fun b hb => by
        intro hmem
        rcases List.mem_append.1 hmem with h | h
        · exact hfresh b (List.mem_cons_of_mem _ hb) h
        · have hba : b = a := by simpa using h
          exact (List.nodup_cons.1 hnd).1 (hba ▸ hb))
      (fun b hb => hsub b (List.mem_cons_of_mem _ hb))
    have hpred : vs.filter (fun v => decide (v ∉ visited ++ a :: rest)) =
        vs.filter (fun v => decide (v ∉ (visited ++ [a]) ++ rest)) := by
      refine List.filter_congr (fun v _ => ?_)
      by_cases h : v ∈ visited ++ a :: rest
      · have h2 : v ∈ (visited ++ [a]) ++ rest := by
          simp only [List.mem_append, List.mem_cons, List.mem_singleton] at h ⊢
          tauto
        simp [h, h2]
      · have h2 : v ∉ (visited ++ [a]) ++ rest := by
          intro hc
          apply h
          simp only [List.mem_append, List.mem_cons, List.mem_singleton] at hc ⊢
          tauto
        simp [h, h2]
    rw [hpred]
    simp only [List.length_cons]
    omega

/-- The BFS loop (lines 1086-1113): dequeue, stop at the sink, otherwise
scan all vertices.  Terminates because every pass either shortens the queue
or marks at least one fresh vertex. -/
def bfsLoop (vertices : List String) (edges : EdgeMap) (source sink : String) :
    BfsState → Option (List String)
  | ⟨[], _, _⟩ => none
  | ⟨current :: rest, visited, parent⟩ =>
    if current = sink then
      reconstructPath parent source sink (parent.length + 1)
    else
      bfsLoop vertices edges source sink
        (bfsScan edges current vertices ⟨rest, visited, parent⟩)
termination_by st =>
  2 * (vertices.filter (fun v => decide (v ∉ st.visited))).length + st.queue.length
decreasing_by
  obtain ⟨adds, heq, hnd, hprop⟩ :=
    bfsScan_shape edges current vertices ⟨rest, visited, parent⟩
  rw [heq]
  simp only []
  have hle := filter_fresh_le vertices adds visited hnd
    (fun a ha => (hprop a ha).1) (fun a ha => (hprop a ha).2.1)
  simp only [List.length_append, List.length_cons]
  omega

/-- function `bfs` (lines 1075-1120). -/
def bfs (vertices : List String) (edges : EdgeMap) (source sink : String) :
    Option (List String) :=
  bfsLoop vertices edges source sink ⟨[source], [source], []⟩

-- ---------------------------------------------------------------------------
-- Edmonds-Karp (maxFlow.ts lines 1000-1072)
-- ---------------------------------------------------------------------------

/-- Consecutive vertex pairs of a path. -/
def pathPairs (path : List String) : List (String × String) :=
  path.zip path.tail

/-- The reverse edge appended for an original edge lacking one
(lines 1016-1026). -/
def reverseEdgeFor (original : EdgeMap) (k : EdgeKey) : Edge :=
  { Edge.base 0 0 with
    expiryWeight :=
      some (jsOrQOpt ((getEdge original k).bind Edge.expiryWeight) 0) }

/-- Builds the residual map: a copy of the original edges followed by the
missing reverse edges. -/
def addReverseEdges (original : EdgeMap) : EdgeMap :=
  original.foldl (fun resid p =>
    match getEdge resid (p.1.2, p.1.1) with
    | some _ => resid
    | none => resid ++ [((p.1.2, p.1.1), reverseEdgeFor original p.1)]) original

/-- The bottleneck capacity along a path (`minCapacity`, lines 1041-1048;
the fold start stands in for `Infinity`, the path always has an edge). -/
def ekMinCap (resid : EdgeMap) (path : List String) : ℚ :=
  let caps := (pathPairs path).map (fun p =>
    ((getEdge resid p).getD (Edge.base 0 0)).capacity -
      ((getEdge resid p).getD (Edge.base 0 0)).flow)
  caps.foldl min (caps.headD 0)

/-- Pushes `mc` units along the path and `-mc` along the reverses
(lines 1051-1057). -/
def ekAugment (resid : EdgeMap) (path : List String) (mc : ℚ) : EdgeMap :=
  (pathPairs path).foldl (fun es p =>
    addFlowAt (addFlowAt es p mc) (p.2, p.1) (-mc)) resid

/-- The augmenting loop of `edmondsKarp` with its hard cap of
`maxPaths = 100` iterations (lines 1028-1060). -/
def ekLoop (vertices : List String) (source sink : String) :
    ℕ → ℚ → List (List String) → EdgeMap → ℚ × List (List String) × EdgeMap
  | 0, flow, paths, resid => (flow, paths, resid)
  | fuel + 1, flow, paths, resid =>
    match bfs vertices resid source sink with
    | none => (flow, paths, resid)
    | some path =>
      let mc := ekMinCap resid path
      ekLoop vertices source sink fuel (flow + mc) (paths ++ [path])
        (ekAugment resid path mc)

/-- function `edmondsKarp` (lines 1000-1072).  The updated network is
returned explicitly (the source mutates `graph.edges` in place). -/
def edmondsKarp (graph : FlowNetwork) (source sink : String) :
    EdmondsKarpResult × FlowNetwork :=
  let resid0 := addReverseEdges graph.edges
  let r := ekLoop graph.vertices source sink 100 0 [] resid0
  let newEdges := graph.edges.map (fun p =>
    (p.1, { p.2 with flow := ((getEdge r.2.2 p.1).getD (Edge.base 0 0)).flow }))
  ({ flow := r.1, flowPaths := r.2.1 }, { graph with edges := newEdges })

-- ---------------------------------------------------------------------------
-- calculateRecipeScore (maxFlow.ts lines 834-998)
-- ---------------------------------------------------------------------------

/-- The minimal score of the empty-used-ingredients branch
(lines 847-853). -/
def emptyBranchScore (recipe : Recipe) (mealTypeBoost : ℚ) : ℚ :=
  min 25
    ((if jsOrQOpt recipe.score 0 ≠ 0 then jsOrQOpt recipe.score 0 * (3/2)
      else 15) * mealTypeBoost)

/-- The lower-cased `matchedWith` set entry (`ing.matchedWith?.toLowerCase()
|| ''`). -/
def matchedWithLower (ing : UsedIngredientWithExpiry) : String :=
  match ing.matchedWith with
  | some s => jsToLower s
  | none => ""

/-- The `expiringIngredients` filter (line 856). -/
def csExpiring (used : List UsedIngredientWithExpiry) :
    List UsedIngredientWithExpiry :=
  used.filter (fun ing => ing.daysUntilExpiry ≤ 7)

/-- The `matchQualitySum` reduction (line 864). -/
def csQualitySum (used : List UsedIngredientWithExpiry) : ℚ :=
  used.foldl (fun sum ing => sum + jsOrQ ing.matchQuality 0) 0

/-- The `usedIngredientMatches` set (line 872). -/
def csMatches (used : List UsedIngredientWithExpiry) : List String :=
  used.map matchedWithLower

/-- The `missedIngredients` filter (line 875). -/
def csMissed (recipe : Recipe) (used : List UsedIngredientWithExpiry) :
    List String :=
  recipe.ingredients.filter (fun recipeIng => jsToLower recipeIng ∉ csMatches used)

/-- The expiring-quantity reduction inside `criticalItemsFloor` (line 979). -/
def csQuantitySum (l : List UsedIngredientWithExpiry) : ℚ :=
  l.foldl (fun sum ing => sum + jsOrQ ing.quantity 1) 0

/-- The `nutritionBonus` reduction (lines 927-930). -/
def csNutritionBonus (nutritionInfo : NutritionInfo) : ℚ :=
  nutritionInfo.categories.foldl (fun acc category =>
    acc + (match List.lookup category nutritionInfo.boosts with
           | none => 1
           | some v => jsOrQ v 1) * 4) 0

/-- The `avgMatchQuality` value (line 868). -/
def csAvg (used : List UsedIngredientWithExpiry) : ℚ :=
  jsOrQ (csQualitySum used / (used.length : ℚ)) 0

/-- The `isPerfectMatch` test (line 880). -/
def csPerfect (recipe : Recipe) (used : List UsedIngredientWithExpiry) : Prop :=
  (csMissed recipe used).length = 0 ∧ recipe.ingredients.length ≤ used.length

instance (recipe : Recipe) (used : List UsedIngredientWithExpiry) :
    Decidable (csPerfect recipe used) := by
  unfold csPerfect
  infer_instance

/-- The `coverageRatio` value (line 885). -/
def csCoverage (recipe : Recipe) (used : List UsedIngredientWithExpiry) : ℚ :=
  (used.length : ℚ) / max 1 (recipe.ingredients.length : ℚ)

/-- The `expiryRatio` value (line 889). -/
def csExpiryRatio (used : List UsedIngredientWithExpiry) : ℚ :=
  ((csExpiring used).length : ℚ) / max 1 (used.length : ℚ)

/-- The `expiryBasedMaxScore` value (line 894). -/
def csExpiryBasedMax (used : List UsedIngredientWithExpiry) : ℚ :=
  70 + min 30 (((csExpiring used).length : ℚ) * 10)

/-- The `maxPossibleScore` cap (lines 898-904). -/
def csCap (recipe : Recipe) (used : List UsedIngredientWithExpiry) : ℚ :=
  if csPerfect recipe used then min 100 (csExpiryBasedMax used)
  else min (csExpiryBasedMax used - 8)
    (60 + jsRound (csCoverage recipe used * 32) -
      ((csMissed recipe used).length : ℚ) * 3)

/-- The `expiryBoostPerItem` value (line 911). -/
def csBoostPerItem (recipe : Recipe) : ℚ :=
  min (15/2) (15 / max 1 (recipe.ingredients.length : ℚ))

/-- The combined `expiryBonus` (lines 914-916). -/
def csExpiryBonus (recipe : Recipe) (used : List UsedIngredientWithExpiry) : ℚ :=
  ((csExpiring used).length : ℚ) * csBoostPerItem recipe + csExpiryRatio used * 20

/-- The `baseScore` sum (lines 944-951). -/
def csBase (M : JsMath) (recipe : Recipe)
    (used : List UsedIngredientWithExpiry) (mealTypeBoost : ℚ)
    (nutritionInfo : NutritionInfo) : ℚ :=
  15 * min 1 ((used.length : ℚ) / 3) +
  10 * csAvg used +
  8 * min 1 (csCoverage recipe used * (3/2)) +
  csExpiryBonus recipe used +
  20 * M.pow (csCoverage recipe used) (5/4) +
  15 * (mealTypeBoost - 1) +
  csNutritionBonus nutritionInfo

/-- The `missingPenalty` (lines 935-941). -/
def csPenalty (M : JsMath) (recipe : Recipe)
    (used : List UsedIngredientWithExpiry) : ℚ :=
  M.pow (((csMissed recipe used).length : ℚ) * (7/2))
    (min 2 (1 + ((csMissed recipe used).length : ℚ) /
      max 1 (recipe.ingredients.length : ℚ)))

/-- The score after the perfect-match bonus, the few-ingredients penalty
and the three-expiring bonus (lines 955-969). -/
def csFs4 (M : JsMath) (recipe : Recipe)
    (used : List UsedIngredientWithExpiry) (mealTypeBoost : ℚ)
    (nutritionInfo : NutritionInfo) : ℚ :=
  let fs1 := csBase M recipe used mealTypeBoost nutritionInfo -
    csPenalty M recipe used
  let fs2 := if csPerfect recipe used then fs1 + 12 else fs1
  let fs3 := if used.length < 3 then
      fs2 - (3 - (used.length : ℚ)) * 15
    else fs2
  if 3 ≤ (csExpiring used).length then fs3 + 15 else fs3

/-- The `criticalItemsFloor` (lines 975-981). -/
def csFloor (M : JsMath) (recipe : Recipe)
    (used : List UsedIngredientWithExpiry) : ℚ :=
  min (if csPerfect recipe used then 75
       else 70 - ((csMissed recipe used).length : ℚ) * 2)
    (((csExpiring used).length : ℚ) *
      (if (recipe.ingredients.length : ℚ) = 0 then 17/2
       else min (17/2) (25 / (recipe.ingredients.length : ℚ))) +
     M.sqrt (csQuantitySum (csExpiring used)) * (5/2))

/-- The main branch of `calculateRecipeScore` (lines 856-997). -/
def csMainScore (M : JsMath) (recipe : Recipe)
    (used : List UsedIngredientWithExpiry) (mealTypeBoost : ℚ)
    (nutritionInfo : NutritionInfo) (rand : ℚ) : ℚ :=
  let fs5 := max (csFloor M recipe used) (csFs4 M recipe used mealTypeBoost
    nutritionInfo) + (rand * 2 - 1)
  let fs6 := if 2 < mealTypeBoost then fs5 * (11/10) else fs5
  let fs7 := fs6 + ((csExpiring used).length : ℚ) * 3
  min (csCap recipe used) (max 0 (jsRound fs7))

/-- function `calculateRecipeScore` (lines 834-998).  `rand` is the
`Math.random()` draw of this call. -/
def calculateRecipeScore (M : JsMath) (recipe : Recipe)
    (usedIngredientsWithExpiry : List UsedIngredientWithExpiry)
    (mealTypeBoost : ℚ) (nutritionInfo : NutritionInfo)
    (balancedMealBoost : ℚ) (rand : ℚ) : ℚ :=
  if usedIngredientsWithExpiry.length = 0 then
    emptyBranchScore recipe mealTypeBoost
  else
    csMainScore M recipe usedIngredientsWithExpiry mealTypeBoost
      nutritionInfo rand

-- ---------------------------------------------------------------------------
-- findOptimalRecipeWithAlternatives (maxFlow.ts lines 583-831)
-- ---------------------------------------------------------------------------

/-- JS `x || null` on a possibly-absent, possibly-null string field. -/
def jsOrNullStr (o : Option (Option String)) : Option String :=
  match o with
  | some (some s) => if s = "" then none else some s
  | _ => none

/-- The used-ingredient record pushed at lines 629-640. -/
def usedRecordFor (M : JsMath) (ing : WeightedIngredient) (edge : Edge) :
    UsedIngredientWithExpiry :=
  { id := ing.id, name := ing.name,
    daysUntilExpiry := ing.daysUntilExpiry,
    matchQuality := jsOrQOpt edge.matchQuality (7/10),
    matchedWith := jsOrNullStr edge.matchedWith,
    quantity := ingQuantity ing,
    unit := ingUnit ing,
    quantityFactor := jsOrQOpt edge.quantityFactor
      (min 3 (M.log10 (ingQuantity ing + 1) + 1)) }

/-- The `usedIngredientsWithExpiry` collection loop (lines 611-644). -/
def collectUsedIngredients (M : JsMath) (edges : EdgeMap)
    (weightedIngredients : List WeightedIngredient) (recipeId : String) :
    List UsedIngredientWithExpiry :=
  (weightedIngredients.foldl
    (fun (acc : List UsedIngredientWithExpiry × List String) ing =>
      match getEdge edges ("i_" ++ ing.id, recipeId) with
      | none => acc
      | some edge =>
        if 0 < edge.flow ∨ 7/10 ≤ jsOrQOpt edge.matchQuality 0 then
          if ing.id ∈ acc.2 then acc
          else (acc.1 ++ [usedRecordFor M ing edge], acc.2 ++ [ing.id])
        else acc)
    ([], [])).1

/-- The nutrition categories and boosts read back from the network
(lines 646-659). -/
def collectNutritionInfo (edges : EdgeMap) (recipeId : String) : NutritionInfo :=
  nutritionCategories.foldl (fun info category =>
    match getEdge edges ("n_" ++ category, recipeId) with
    | none => info
    | some edge =>
      { categories := info.categories ++ [category],
        boosts := info.boosts ++ [(category, jsOrQOpt edge.nutritionBoost 1)] })
    ⟨[], []⟩

/-- The per-recipe score result of the main branch (lines 597-711). -/
def scoreResultFor (M : JsMath) (edges : EdgeMap)
    (weightedIngredients : List WeightedIngredient)
    (preferredMealType : String) (recipe : Recipe) (rand : ℚ) :
    RecipeScoreResult :=
  let recipeId := "r_" ++ recipe.id
  let mealTypeBoost := mealTypeBoostFor preferredMealType recipe.mealType
  let used := collectUsedIngredients M edges weightedIngredients recipeId
  let nutritionInfo := collectNutritionInfo edges recipeId
  let normalizedScore :=
    calculateRecipeScore M recipe used mealTypeBoost nutritionInfo 1 rand
  let usedIngredientMatches := (used.filter (fun ing =>
    match ing.matchedWith with
    | some s => s ≠ ""
    | none => false)).map (fun ing => jsToLower (ing.matchedWith.getD ""))
  let missedIngredients := recipe.ingredients.filter
    (fun recipeIng => jsToLower recipeIng ∉ usedIngredientMatches)
  let uniqueUsedIngredients := jsDedup (used.map (fun ing =>
    match ing.matchedWith with
    | some s => jsOrStr s ing.name
    | none => ing.name))
  { id := recipe.id, title := recipe.title, image := recipe.image,
    score := jsRound normalizedScore,
    mealType := jsOrStr recipe.mealType "any",
    usedIngredients := uniqueUsedIngredients,
    missedIngredients := missedIngredients,
    instructions := recipe.instructions,
    matchCount := some uniqueUsedIngredients.length,
    totalIngredients := some recipe.ingredients.length,
    expiringIngredients :=
      some (used.filter (fun ing => ing.daysUntilExpiry ≤ 7)).length }

/-- The no-valid-recipes fallback entry (lines 720-739); `rand` is this
entry's `Math.random()` draw. -/
def fallbackResultFor (preferredMealType : String) (recipe : Recipe)
    (rand : ℚ) : RecipeScoreResult :=
  let mealTypeBoost : ℚ :=
    if recipe.mealType = preferredMealType then 5/2 else 6/5
  { id := recipe.id, title := recipe.title, image := recipe.image,
    score := jsRound (min 100 ((rand * 30 + 15) * mealTypeBoost)),
    mealType := jsOrStr recipe.mealType "any",
    usedIngredients := [],
    missedIngredients := recipe.ingredients,
    instructions := recipe.instructions,
    matchCount := some 0,
    totalIngredients := some recipe.ingredients.length,
    expiringIngredients := some 0 }

/-- Stable descending sort by score, as `validRecipes.sort((a, b) =>
b.score - a.score)`. -/
def sortByScoreDesc (l : List RecipeScoreResult) : List RecipeScoreResult :=
  l.mergeSort (fun a b => decide (b.score ≤ a.score))

/-- function `normalizeScores` inside the optimizer (lines 747-785);
`randNorm i` is the `Math.random()` draw for the `i`-th recipe of the
equal-scores branch. -/
def normalizeScores (M : JsMath) (randNorm : ℕ → ℚ)
    (recipes : List RecipeScoreResult) : List RecipeScoreResult :=
  let scores := recipes.map (fun r => r.score)
  let minScore := scores.foldl min (scores.headD 0)
  let maxScore := scores.foldl max (scores.headD 0)
  if minScore = maxScore then
    recipes.enum.map (fun p =>
      { p.2 with score := min 100 (max 1
          (jsRound (p.2.score * (85/100 + randNorm p.1 * (3/10))))) })
  else
    recipes.map (fun r =>
      let normalizedScore := (r.score - minScore) / (maxScore - minScore)
      let enhanced := M.pow normalizedScore (7/10)
      { r with score := min 100 (jsRound (minScore + enhanced * (maxScore - minScore))) })

/-- function `findOptimalRecipeWithAlternatives`, try branch
(lines 583-798).  `randScore i` / `randFallback i` / `randNorm i` are the
`Math.random()` draws of the scoring pass, the fallback pass and the
normalisation pass respectively. -/
def findOptimalRecipeWithAlternatives (M : JsMath) (graph : FlowNetwork)
    (weightedIngredients : List WeightedIngredient) (recipes : List Recipe)
    (count : ℕ) (randScore randFallback randNorm : ℕ → ℚ) :
    List RecipeScoreResult :=
  let filteredRecipes := graph.filteredRecipes.getD recipes
  let preferredMealType := jsOrStrOpt graph.preferredMealType "any"
  let ek := edmondsKarp graph "s" "t"
  let recipeScores := filteredRecipes.enum.map (fun p =>
    scoreResultFor M (ek.2).edges weightedIngredients preferredMealType p.2
      (randScore p.1))
  let validRecipes0 := recipeScores.filter
    (fun r => decide (0 < r.usedIngredients.length))
  let validRecipes :=
    if validRecipes0.length = 0 then
      (filteredRecipes.enum.map (fun p =>
        fallbackResultFor preferredMealType p.2 (randFallback p.1))).take count
    else validRecipes0
  let sorted := sortByScoreDesc validRecipes
  (normalizeScores M randNorm sorted).take count

/-- The catch-branch fallback of `findOptimalRecipeWithAlternatives`
(lines 799-830), reached only when the try branch throws. -/
def findOptimalErrorFallback (recipes : List Recipe)
    (preferredMealType : Option String) (count : ℕ) : List RecipeScoreResult :=
  let mealTypeFilter := jsOrStrOpt preferredMealType "any"
  let filteredRecipes :=
    if mealTypeFilter ≠ "any" then
      recipes.filter (fun r =>
        r.mealType = mealTypeFilter ∨ r.mealType = "any")
    else recipes
  (filteredRecipes.take count).map (fun recipe =>
    { id := recipe.id, title := recipe.title, image := recipe.image,
      score := jsRound (min 100 (jsOrQ (jsOrQOpt recipe.score 0 * 10) 25 *
        (if recipe.mealType = mealTypeFilter then 3/2 else 1))),
      mealType := jsOrStr recipe.mealType "any",
      usedIngredients := [],
      missedIngredients := recipe.ingredients,
      instructions := recipe.instructions,
      matchCount := some 0,
      totalIngredients := some recipe.ingredients.length,
      expiringIngredients := some 0 })

-- ---------------------------------------------------------------------------
-- RecipeRecommendationService.ts
-- ---------------------------------------------------------------------------

/-- A Mongoose inventory document as the service reads it.
`expiryDiffDays` holds `differenceInDays(expiryDate, today)` when the
document has an `expiryDate`. -/
structure DbIngredient where
  mongoId : String
  name : String
  quantity : Option ℚ
  unit : Option String
  expiryDiffDays : Option ℚ
  aboutToExpire : Bool
  deriving DecidableEq

/-- A Mongoose recipe document as the service reads it. -/
structure DbRecipe where
  mongoId : String
  title : String
  image : Option String
  ingredients : List String
  instructions : List String
  mealType : String
  deriving DecidableEq

/-- interface `RecommendationOptions`. -/
structure RecommendationOptions where
  mealType : String
  prioritizeExpiring : Bool
  selectedIngredients : Option (List String)
  deriving DecidableEq

/-- method `convertToWeightedIngredients` (service lines 22-117). -/
def convertToWeightedIngredients (ingredients : List DbIngredient)
    (options : RecommendationOptions) : List WeightedIngredient :=
  let filteredIngredients :=
    match options.selectedIngredients with
    | some sel =>
      if 0 < sel.length then
        ingredients.filter (fun (ing : DbIngredient) => sel.any (fun selectedName =>
          jsIncludes (jsToLower ing.name) (jsToLower selectedName) ||
          jsIncludes (jsToLower selectedName) (jsToLower ing.name)))
      else ingredients
    | none => ingredients
  filteredIngredients.map (fun (ingredient : DbIngredient) =>
    let daysUntilExpiry : ℚ :=
      match ingredient.expiryDiffDays with
      | none => 999
      | some d => max (-1) d
    let expiryMultiplier : ℚ := if options.prioritizeExpiring then 3 else 3/2
    let weight0 : ℚ :=
      if ingredient.aboutToExpire then 3 * expiryMultiplier
      else if daysUntilExpiry ≤ 0 then 5 * expiryMultiplier
      else if daysUntilExpiry ≤ 3 then 4 * expiryMultiplier
      else if daysUntilExpiry ≤ 7 then 2 * expiryMultiplier
      else 1
    let weight :=
      match options.selectedIngredients with
      | some sel =>
        if sel.any (fun nm =>
            jsToLower nm = jsToLower ingredient.name ||
            jsIncludes (jsToLower nm) (jsToLower ingredient.name) ||
            jsIncludes (jsToLower ingredient.name) (jsToLower nm)) then
          weight0 * 2
        else weight0
      | none => weight0
    { id := ingredient.mongoId, name := ingredient.name, weight := weight,
      daysUntilExpiry := daysUntilExpiry,
      originalIngredient := some ⟨ingredient.quantity, ingredient.unit⟩ })

/-- method `convertDbRecipesToAlgoFormat` (service lines 120-165);
`randRecipe i` is the base-score `Math.random()` draw of recipe `i`. -/
def convertDbRecipesToAlgoFormat (recipes : List DbRecipe) (mealType : String)
    (randRecipe : ℕ → ℚ) : List Recipe :=
  recipes.enum.map (fun p =>
    let baseScore := jsFloor (randRecipe p.1 * 50) + 40
    let mealTypeBoost : ℚ :=
      if p.2.mealType = mealType then 3/2
      else if p.2.mealType = "any" then 6/5
      else 1
    let complexityFactor : ℚ := 1 + ((p.2.ingredients.length % 5 : ℕ) : ℚ) * (1/10)
    { id := p.2.mongoId, title := p.2.title, image := p.2.image,
      ingredients := p.2.ingredients, instructions := p.2.instructions,
      mealType := p.2.mealType,
      score := some (baseScore * mealTypeBoost * complexityFactor) })

/-- The post-processing metadata pass of `getRecommendedRecipes`
(service lines 253-273). -/
def addRecipesMetadata (ingredients : List DbIngredient)
    (rs : List RecipeScoreResult) : List RecipeScoreResult :=
  rs.map (fun recipe =>
    let expiring := (recipe.usedIngredients.filter (fun ingName =>
      match ingredients.find? (fun ing => ing.name = ingName) with
      | some ing => ing.aboutToExpire
      | none => false)).length
    { recipe with
      matchCount := some recipe.usedIngredients.length,
      totalIngredients :=
        some (recipe.usedIngredients.length + recipe.missedIngredients.length),
      expiringIngredients := some expiring })

/-- The score-normalisation pass of `getRecommendedRecipes`
(service lines 276-296). -/
def serviceNormalizePass (rs : List RecipeScoreResult) : List RecipeScoreResult :=
  rs.map (fun recipe =>
    let totalIngredients : ℚ :=
      ((recipe.usedIngredients.length + recipe.missedIngredients.length : ℕ) : ℚ)
    let missingRatio := (recipe.missedIngredients.length : ℚ) / totalIngredients
    let missingPenalty := missingRatio * 15
    let expiryBonus := ((recipe.expiringIngredients.getD 0 : ℕ) : ℚ) * 5
    { recipe with
      score := min 100 (max 1 (jsRound (recipe.score - missingPenalty + expiryBonus))) })

/-- The meal-type-filtered, 1000-capped recipe fetch of
`getRecommendedRecipes` (service lines 203-207). -/
def fetchRecipes (recipes : List DbRecipe) (mealType : String) : List DbRecipe :=
  (if mealType ≠ "any" then
    recipes.filter (fun r => r.mealType = mealType ∨ r.mealType = "any")
  else recipes).take 1000

/-- The non-degenerate body of `getRecommendedRecipes`
(service lines 220-308). -/
def getRecommendedMain (M : JsMath) (ingredients : List DbIngredient)
    (recipes : List DbRecipe) (options : RecommendationOptions) (count : ℕ)
    (randRecipe randScore randFallback randNorm : ℕ → ℚ) :
    List RecipeScoreResult :=
  let mealType := options.mealType
  let recipesFetched := fetchRecipes recipes mealType
  let weightedIngredients := convertToWeightedIngredients ingredients options
  let algoRecipes := convertDbRecipesToAlgoFormat recipesFetched mealType randRecipe
  let flowNetwork := buildFlowNetwork M weightedIngredients algoRecipes mealType
  let recommendedRecipes := findOptimalRecipeWithAlternatives M flowNetwork
    weightedIngredients algoRecipes count randScore randFallback randNorm
  sortByScoreDesc (serviceNormalizePass (addRecipesMetadata ingredients
    recommendedRecipes))

/-- method `getRecommendedRecipes` (service lines 168-313), with the
database collections and the `Math.random()` draws passed explicitly. -/
def getRecommendedRecipes (M : JsMath) (ingredients : List DbIngredient)
    (recipes : List DbRecipe) (options : RecommendationOptions) (count : ℕ)
    (randRecipe randScore randFallback randNorm : ℕ → ℚ) :
    List RecipeScoreResult :=
  if ingredients.length = 0 then []
  else if (fetchRecipes recipes options.mealType).length = 0 then []
  else
    getRecommendedMain M ingredients recipes options count randRecipe
      randScore randFallback randNorm

/-- A reference `JsMath` whose values coincide with `Math.pow` at every
exponentiation of the shape `pow 0 y` (`y ≠ 0`), `pow 1 y` and `pow x 0`,
and with `Math.sqrt` at `0` and `1`; the concrete runs below only depend
on it at such points (all other occurrences are absorbed by clamps). -/
def jsMathModel : JsMath :=
  { pow := fun x y => if y = 0 then 1 else if x = 0 then 0 else 1,
    sqrt := fun x => if x = 1 then 1 else 0,
    log10 := fun _ => 0 }

-- Concrete inputs and derived definitions used by the theorems below.

/-- A recipe with no prior heuristic score, used by the C3 counterexample. -/
def c3Recipe : Recipe :=
  { id := "c3", title := "t", image := none, ingredients := ["x"],
    instructions := [], mealType := "any", score := none }

/-- The final residual map computed by the augmenting loop of
`edmondsKarp`. -/
def edmondsKarpResidual (graph : FlowNetwork) (source sink : String) : EdgeMap :=
  (ekLoop graph.vertices source sink 100 0 [] (addReverseEdges graph.edges)).2.2

/-- A two-vertex network used as the C9 witness. -/
def c9Graph : FlowNetwork :=
  { vertices := ["s", "t"], edges := [(("s", "t"), Edge.base 5 0)],
    filteredRecipes := none, preferredMealType := none }


/-- The 21 filler ingredient names of the large counterexample recipe. -/
def fillerNames : List String :=
  ["aa1", "aa2", "aa3", "aa4", "aa5", "aa6", "aa7", "aa8", "aa9", "aa10",
   "aa11", "aa12", "aa13", "aa14", "aa15", "aa16", "aa17", "aa18", "aa19",
   "aa20", "aa21"]

/-- A 22-ingredient recipe of which the inventory covers only `milk`:
its missing-ingredient penalty drives the dynamic score cap negative. -/
def bigRecipe : Recipe :=
  { id := "r1", title := "Big", image := none,
    ingredients := "milk" :: fillerNames, instructions := [],
    mealType := "any", score := none }

/-- The single used ingredient of the C2 counterexample, expiring. -/
def c2UsedExpiring : UsedIngredientWithExpiry :=
  { id := "i1", name := "Milk", daysUntilExpiry := 3, matchQuality := 1,
    matchedWith := some "milk", quantity := 1, unit := "unit",
    quantityFactor := 1 }

/-- The same used ingredient, far from expiry. -/
def c2UsedFresh : UsedIngredientWithExpiry :=
  { c2UsedExpiring with daysUntilExpiry := 999 }

/-- A trivial `JsMath` with monotone `sqrt`, used to witness hypotheses
about the library functions. -/
def flatJsMath : JsMath :=
  { pow := fun _ _ => 0, sqrt := fun _ => 0, log10 := fun _ => 0 }

/-- The single inventory ingredient of the end-to-end counterexample. -/
def invMilk : WeightedIngredient :=
  { id := "ing1", name := "Milk", weight := 1, daysUntilExpiry := 999,
    originalIngredient := none }

/-- A one-ingredient recipe fully covered by the inventory. -/
def smallRecipe : Recipe :=
  { id := "r2", title := "Small", image := none, ingredients := ["milk"],
    instructions := [], mealType := "any", score := none }

/-- A constant random stream. -/
def halfRand : ℕ → ℚ := fun _ => 1/2

/-- The network built over `invMilk`, `bigRecipe` and `smallRecipe`. -/
def c1Graph : FlowNetwork :=
  buildFlowNetwork jsMathModel [invMilk] [bigRecipe, smallRecipe] "dinner"

/-- The full optimizer run of the end-to-end counterexample. -/
def c1Output : List RecipeScoreResult :=
  findOptimalRecipeWithAlternatives jsMathModel c1Graph [invMilk]
    [bigRecipe, smallRecipe] 4 halfRand halfRand halfRand

/-- A concrete inventory document for service-level witnesses. -/
def dbMilk : DbIngredient :=
  { mongoId := "i1", name := "Milk", quantity := none, unit := none,
    expiryDiffDays := none, aboutToExpire := false }

/-- A concrete recipe document for service-level witnesses. -/
def dbSmallRecipe : DbRecipe :=
  { mongoId := "r2", title := "Small", image := none, ingredients := ["milk"],
    instructions := [], mealType := "any" }

-- ---------------------------------------------------------------------------
-- ---------------------------------------------------------------------------
-- Edge-map accessors and invariants for the flow-conservation proofs
-- ---------------------------------------------------------------------------

def keysOf (es : EdgeMap) : List EdgeKey := es.map Prod.fst

def flowAt (es : EdgeMap) (k : EdgeKey) : ℚ :=
  ((getEdge es k).getD (Edge.base 0 0)).flow

def capAt (es : EdgeMap) (k : EdgeKey) : ℚ :=
  ((getEdge es k).getD (Edge.base 0 0)).capacity

def GoodKey (k : EdgeKey) : Prop :=
  (∃ x, k = ("s", "i_" ++ x)) ∨ (∃ x y, k = ("i_" ++ x, "r_" ++ y)) ∨
  (∃ y, k = ("r_" ++ y, "t")) ∨ (∃ c y, k = ("n_" ++ c, "r_" ++ y)) ∨
  (∃ y, k = ("balanced_meal", "r_" ++ y))

def EntryOk (p : EdgeKey × Edge) : Prop :=
  GoodKey p.1 ∧ p.2.flow = 0 ∧ 0 ≤ p.2.capacity

def EdgesOk (es : EdgeMap) : Prop :=
  (∀ p ∈ es, EntryOk p) ∧ (keysOf es).Nodup

/-- The step of the `addReverseEdges` fold, named for the proofs. -/
def addRevStep (original : EdgeMap) (resid : EdgeMap) (p : EdgeKey × Edge) :
    EdgeMap :=
  match getEdge resid (p.1.2, p.1.1) with
  | some _ => resid
  | none => resid ++ [((p.1.2, p.1.1), reverseEdgeFor original p.1)]

/-- Invariant of the residual map under construction: the original entries
followed by zero-capacity zero-flow reverse entries, with duplicate-free
keys. -/
def RevOk (orig acc : EdgeMap) : Prop :=
  (∃ extra, acc = orig ++ extra ∧ ∀ p ∈ extra,
    p.2.flow = 0 ∧ p.2.capacity = 0 ∧ ∃ k ∈ keysOf orig, p.1 = (k.2, k.1)) ∧
  (keysOf acc).Nodup

/-- The BFS loop invariant: queued vertices are visited, the visited list
is duplicate-free and one longer than the parent map, parent keys are
duplicate-free, every parent entry records an admissible edge from a
vertex visited strictly earlier, and every visited vertex except the
source has a parent entry. -/
def BInv (edges : EdgeMap) (source : String) (st : BfsState) : Prop :=
  (∀ v ∈ st.queue, v ∈ st.visited) ∧
  st.visited.Nodup ∧
  st.visited.length = st.parent.length + 1 ∧
  (st.parent.map Prod.fst).Nodup ∧
  (∀ vp ∈ st.parent, edgeOpen edges (vp.2, vp.1) = true ∧
    vp.1 ∈ st.visited ∧ vp.2 ∈ st.visited ∧
    st.visited.indexOf vp.2 < st.visited.indexOf vp.1) ∧
  (∀ v ∈ st.visited, v ≠ source → v ∈ st.parent.map Prod.fst)

/-- The keys of the edges leaving the source vertex. -/
def srcKeys (orig : EdgeMap) : List EdgeKey :=
  (keysOf orig).filter (fun k => decide (k.1 = "s"))

/-- The total flow on the original source-outgoing keys, read in a
residual map. -/
def srcFlowSum (orig es : EdgeMap) : ℚ :=
  ((srcKeys orig).map (fun k => flowAt es k)).sum

/-- The sum of the capacities of all edges leaving the source vertex. -/
def sourceCapacitySum (es : EdgeMap) : ℚ :=
  ((es.filter (fun p => decide (p.1.1 = "s"))).map
    (fun p => p.2.capacity)).sum

/-- The invariant of the Edmonds-Karp augmenting loop: the residual map
keeps the keys and capacities of the initial residual map, flows are
skew-symmetric, and every flow stays below its capacity. -/
def EkInv (orig resid : EdgeMap) : Prop :=
  keysOf resid = keysOf (addReverseEdges orig) ∧
  (∀ k, capAt resid k = capAt (addReverseEdges orig) k) ∧
  (∀ k ∈ keysOf (addReverseEdges orig),
    flowAt resid k + flowAt resid (k.2, k.1) = 0) ∧
  (∀ k ∈ keysOf (addReverseEdges orig),
    flowAt resid k ≤ capAt (addReverseEdges orig) k)


-- Theorems
-- ---------------------------------------------------------------------------

/-- The quality returned by `findBestIngredientMatch` is the running
maximum of the per-string qualities. -/
theorem findBestIngredientMatch_quality_eq (inv : String) (rs : List String) :
    (findBestIngredientMatch inv rs).quality =
      rs.foldl (fun m r => max m (matchQualityFor (normalizeChars inv.data) r)) 0 := by
  have key : ∀ (l : List String) (acc : Option String × ℚ),
      (l.foldl (fun (a : Option String × ℚ) recipeIng =>
        let q := matchQualityFor (normalizeChars inv.data) recipeIng
        if a.2 < q then (some recipeIng, q) else a) acc).2 =
      l.foldl (fun m r => max m (matchQualityFor (normalizeChars inv.data) r)) acc.2 := by
    intro l
    induction l with
    | nil => intro acc; rfl
    | cons r rest ih =>
      intro acc
      simp only [List.foldl_cons]
      rw [ih]
      rcases lt_or_le acc.2 (matchQualityFor (normalizeChars inv.data) r) with h | h
      · simp [h, max_eq_right h.le]
      · simp [not_lt.2 h, max_eq_left h]
  simpa [findBestIngredientMatch] using key rs (none, 0)

/-- The length-ratio used by the containment tier lies in `[0, 1]`. -/
theorem ratio_bounds (a b : ℕ) :
    0 ≤ min ((a : ℚ) / b) ((b : ℚ) / a) ∧ min ((a : ℚ) / b) ((b : ℚ) / a) ≤ 1 := by
  constructor
  · exact le_min (by positivity) (by positivity)
  · rcases le_total (a : ℚ) (b : ℚ) with h | h
    · refine le_trans (min_le_left _ _) ?_
      rcases eq_or_lt_of_le (show (0 : ℚ) ≤ (b : ℚ) by positivity) with hb | hb
      · rw [← hb]; simp
      · rw [div_le_one hb]; exact h
    · refine le_trans (min_le_right _ _) ?_
      rcases eq_or_lt_of_le (show (0 : ℚ) ≤ (a : ℚ) by positivity) with ha | ha
      · rw [← ha]; simp
      · rw [div_le_one ha]; exact h

/-- C6: for every inventory name and non-empty recipe-ingredient list,
`findBestIngredientMatch` returns the maximum per-string quality; a string
whose normalisation equals the inventory normalisation scores `1`, a
non-equal string with substring containment in either direction scores
`0.7 + 0.25 * min(lenA/lenB, lenB/lenA)`, a value in `[0.7, 0.95]`; and in
particular `("Milk", ["2% Milk"])` scores at least `0.7` while
`("Milk", ["Milk"])` scores exactly `1`. -/
theorem C6_fuzzy_match_tiers (inv r1 r2 : String) (rs : List String)
    (hne : rs ≠ [])
    (heq : normalizeIngredient r1 = normalizeIngredient inv)
    (hneq : normalizeIngredient r2 ≠ normalizeIngredient inv)
    (hcont : listContainsSub (normalizeChars r2.data) (normalizeChars inv.data) ∨
      listContainsSub (normalizeChars inv.data) (normalizeChars r2.data)) :
    ((findBestIngredientMatch inv rs).quality =
      rs.foldl (fun m r => max m (matchQualityFor (normalizeChars inv.data) r)) 0) ∧
    matchQualityFor (normalizeChars inv.data) r1 = 1 ∧
    (matchQualityFor (normalizeChars inv.data) r2 =
      7/10 + min (((normalizeChars inv.data).length : ℚ) / ((normalizeChars r2.data).length : ℚ))
        (((normalizeChars r2.data).length : ℚ) / ((normalizeChars inv.data).length : ℚ)) * (1/4) ∧
     7/10 ≤ matchQualityFor (normalizeChars inv.data) r2 ∧
     matchQualityFor (normalizeChars inv.data) r2 ≤ 19/20) ∧
    7/10 ≤ (findBestIngredientMatch "Milk" ["2% Milk"]).quality ∧
    (findBestIngredientMatch "Milk" ["Milk"]).quality = 1 := by
  have heq2 : normalizeChars r1.data = normalizeChars inv.data := by
    have h := congrArg String.data heq
    simpa [normalizeIngredient] using h
  have hneq2 : normalizeChars r2.data ≠ normalizeChars inv.data := by
    intro hc
    exact hneq (congrArg String.mk hc)
  refine ⟨findBestIngredientMatch_quality_eq inv rs, ?_, ⟨?_, ?_, ?_⟩, ?_, ?_⟩
  · simp [matchQualityFor, heq2]
  · simp only [matchQualityFor, hneq2, if_false]
    rw [if_pos (by simpa using hcont)]
  · simp only [matchQualityFor, hneq2, if_false]
    rw [if_pos (by simpa using hcont)]
    have h0 := (ratio_bounds (normalizeChars inv.data).length (normalizeChars r2.data).length).1
    linarith
  · simp only [matchQualityFor, hneq2, if_false]
    rw [if_pos (by simpa using hcont)]
    have h1 := (ratio_bounds (normalizeChars inv.data).length (normalizeChars r2.data).length).2
    linarith
  · with_unfolding_all decide
  · with_unfolding_all decide

/-- Witness for C6 at concrete strings: `"ABC"` normalises equally to
`"abc"`, `"zabcz"` contains it strictly. -/
theorem C6_fuzzy_match_tiers_witness :
    ((findBestIngredientMatch "abc" ["zz"]).quality =
      (["zz"] : List String).foldl
        (fun m r => max m (matchQualityFor (normalizeChars "abc".data) r)) 0) ∧
    matchQualityFor (normalizeChars "abc".data) "ABC" = 1 ∧
    (matchQualityFor (normalizeChars "abc".data) "zabcz" =
      7/10 + min (((normalizeChars "abc".data).length : ℚ) / ((normalizeChars "zabcz".data).length : ℚ))
        (((normalizeChars "zabcz".data).length : ℚ) / ((normalizeChars "abc".data).length : ℚ)) * (1/4) ∧
     7/10 ≤ matchQualityFor (normalizeChars "abc".data) "zabcz" ∧
     matchQualityFor (normalizeChars "abc".data) "zabcz" ≤ 19/20) ∧
    7/10 ≤ (findBestIngredientMatch "Milk" ["2% Milk"]).quality ∧
    (findBestIngredientMatch "Milk" ["Milk"]).quality = 1 :=
  C6_fuzzy_match_tiers "abc" "ABC" "zabcz" ["zz"] (by decide)
    (by with_unfolding_all decide) (by with_unfolding_all decide)
    (by with_unfolding_all decide)

/-- C4 counterexample: the units actually recognised are `kilo`, `tbsp`
and `tsp` — the spelled-out `kilogram`, `tablespoon` and `teaspoon` of the
claim fall through unchanged. -/
theorem C4_counterexample :
    normalizeQuantity 1 "kilogram" = 1 ∧ (1 : ℚ) ≠ 1 * 1000 ∧
    normalizeQuantity 1 "tablespoon" = 1 ∧ (1 : ℚ) ≠ 1 * 15 ∧
    normalizeQuantity 1 "teaspoon" = 1 ∧ (1 : ℚ) ≠ 1 * 5 := by
  with_unfolding_all decide

/-- C4 (amended): `normalizeQuantity` scales by 1000 for `kilo`/`kg` and
`liter`/`l`, by 15 for `tbsp`, by 5 for `tsp`, by 240 for `cup` (after
lower-casing), passes every other unit through unchanged, and is therefore
idempotent on unrecognised units. -/
theorem C4_normalizeQuantity_amended (q : ℚ) (u : String) :
    (normalizeQuantity q u =
      if jsToLower u = "kilo" ∨ jsToLower u = "kg" then q * 1000
      else if jsToLower u = "liter" ∨ jsToLower u = "l" then q * 1000
      else if jsToLower u = "tbsp" then q * 15
      else if jsToLower u = "tsp" then q * 5
      else if jsToLower u = "cup" then q * 240
      else q) ∧
    (jsToLower u ∉ (["kilo", "kg", "liter", "l", "tbsp", "tsp", "cup"] : List String) →
      normalizeQuantity q u = q ∧
      normalizeQuantity (normalizeQuantity q u) u = normalizeQuantity q u) := by
  constructor
  · rfl
  · intro h
    simp only [List.mem_cons, List.mem_singleton, not_or] at h
    obtain ⟨h1, h2, h3, h4, h5, h6, h7, _⟩ := h
    have hq : ∀ x : ℚ, normalizeQuantity x u = x := by
      intro x
      simp [normalizeQuantity, h1, h2, h3, h4, h5, h6, h7]
    exact ⟨hq q, by rw [hq q, hq q]⟩

/-- Witness for C4 at the unrecognised unit `piece`. -/
theorem C4_normalizeQuantity_amended_witness :
    (normalizeQuantity 3 "piece" =
      if jsToLower "piece" = "kilo" ∨ jsToLower "piece" = "kg" then 3 * 1000
      else if jsToLower "piece" = "liter" ∨ jsToLower "piece" = "l" then 3 * 1000
      else if jsToLower "piece" = "tbsp" then 3 * 15
      else if jsToLower "piece" = "tsp" then 3 * 5
      else if jsToLower "piece" = "cup" then 3 * 240
      else 3) ∧
    normalizeQuantity 3 "piece" = 3 ∧
    normalizeQuantity (normalizeQuantity 3 "piece") "piece" = normalizeQuantity 3 "piece" :=
  ⟨(C4_normalizeQuantity_amended 3 "piece").1,
   (C4_normalizeQuantity_amended 3 "piece").2 (by decide)⟩

/-- C3 counterexample: with no prior score and `mealTypeBoost = 1.2` the
code returns `15 * 1.2 = 18`, not the claimed
`min(25, 15 * 1.5 * 1.2) = 25`: the `1.5` factor is applied only to a
present nonzero prior score, never to the default `15`. -/
theorem C3_counterexample :
    calculateRecipeScore jsMathModel c3Recipe [] (6/5) ⟨[], []⟩ 1 0 = 18 ∧
    (18 : ℚ) ≠ min 25 (15 * (3/2) * (6/5)) := by
  with_unfolding_all decide

/-- C3 (amended): with an empty used-ingredient list the score is
`min(25, s * 1.5 * mealTypeBoost)` when the recipe carries a nonzero prior
score `s`, and `min(25, 15 * mealTypeBoost)` — without the `1.5` factor —
when it carries none. -/
theorem C3_empty_used_score (M : JsMath) (recipe : Recipe) (mealTypeBoost : ℚ)
    (nutritionInfo : NutritionInfo) (balancedMealBoost rand : ℚ) :
    calculateRecipeScore M recipe [] mealTypeBoost nutritionInfo
        balancedMealBoost rand =
      if jsOrQOpt recipe.score 0 ≠ 0 then
        min 25 (jsOrQOpt recipe.score 0 * (3/2) * mealTypeBoost)
      else min 25 (15 * mealTypeBoost) := by
  by_cases h : jsOrQOpt recipe.score 0 ≠ 0
  · simp [calculateRecipeScore, emptyBranchScore, h, mul_assoc]
  · simp [calculateRecipeScore, emptyBranchScore, h]

/-- C7: `edmondsKarp` performs at most `maxPaths = 100` augmenting
iterations, so the returned `flowPaths` has length at most 100 on every
input network. -/
theorem C7_flowPaths_bounded (graph : FlowNetwork) (source sink : String) :
    ((edmondsKarp graph source sink).1.flowPaths).length ≤ 100 := by
  have key : ∀ (fuel : ℕ) (flow : ℚ) (paths : List (List String)) (resid : EdgeMap),
      ((ekLoop graph.vertices source sink fuel flow paths resid).2.1).length ≤
        paths.length + fuel := by
    intro fuel
    induction fuel with
    | zero => intro flow paths resid; simp [ekLoop]
    | succ n ih =>
      intro flow paths resid
      rw [ekLoop]
      cases h : bfs graph.vertices resid source sink with
      | none => simp
      | some path =>
        simp only []
        refine le_trans (ih _ _ _) ?_
        simp
        omega
  simpa [edmondsKarp] using key 100 0 [] (addReverseEdges graph.edges)

/-- Lookup through the flow-writeback map of `edmondsKarp`. -/
theorem getEdge_map_flow (es resid : EdgeMap) (k : EdgeKey) :
    getEdge (es.map (fun p =>
      (p.1, { p.2 with flow := ((getEdge resid p.1).getD (Edge.base 0 0)).flow }))) k =
    (getEdge es k).map (fun e =>
      { e with flow := ((getEdge resid k).getD (Edge.base 0 0)).flow }) := by
  induction es with
  | nil => rfl
  | cons p rest ih =>
    simp only [List.map_cons, getEdge, List.lookup] at *
    by_cases hk : k = p.1
    · subst hk
      simp
    · have hb : (k == p.1) = false := by
        simp [hk]
      simp [hb, ih]

/-- C9: `edmondsKarp` changes its input network only through the `flow`
fields: the vertex list, the recipe/meal-type fields, the set (and order)
of edge keys, every capacity and every annotation are unchanged, and each
original edge receives exactly the flow of its key in the final residual
map. -/
theorem C9_edmondsKarp_frame (graph : FlowNetwork) (source sink : String)
    (k : EdgeKey) (e : Edge) (h : getEdge graph.edges k = some e) :
    ((edmondsKarp graph source sink).2).vertices = graph.vertices ∧
    ((edmondsKarp graph source sink).2).filteredRecipes = graph.filteredRecipes ∧
    ((edmondsKarp graph source sink).2).preferredMealType = graph.preferredMealType ∧
    ((edmondsKarp graph source sink).2).edges.map Prod.fst =
      graph.edges.map Prod.fst ∧
    getEdge ((edmondsKarp graph source sink).2).edges k =
      some { e with flow :=
        ((getEdge (edmondsKarpResidual graph source sink) k).getD
          (Edge.base 0 0)).flow } := by
  refine ⟨rfl, rfl, rfl, ?_, ?_⟩
  · simp [edmondsKarp]
  · show getEdge (graph.edges.map (fun p =>
      (p.1, { p.2 with flow :=
        ((getEdge (edmondsKarpResidual graph source sink) p.1).getD
          (Edge.base 0 0)).flow }))) k = _
    rw [getEdge_map_flow, h]
    rfl

/-- Witness for C9 on a one-edge network. -/
theorem C9_edmondsKarp_frame_witness :
    ((edmondsKarp c9Graph "s" "t").2).vertices = c9Graph.vertices ∧
    ((edmondsKarp c9Graph "s" "t").2).filteredRecipes = c9Graph.filteredRecipes ∧
    ((edmondsKarp c9Graph "s" "t").2).preferredMealType = c9Graph.preferredMealType ∧
    ((edmondsKarp c9Graph "s" "t").2).edges.map Prod.fst =
      c9Graph.edges.map Prod.fst ∧
    getEdge ((edmondsKarp c9Graph "s" "t").2).edges ("s", "t") =
      some { Edge.base 5 0 with flow :=
        ((getEdge (edmondsKarpResidual c9Graph "s" "t") ("s", "t")).getD
          (Edge.base 0 0)).flow } :=
  C9_edmondsKarp_frame c9Graph "s" "t" ("s", "t") (Edge.base 5 0) rfl

set_option maxRecDepth 100000 in
/-- C2 counterexample: on `bigRecipe` both the expiring and the fresh
variant of the single used ingredient score exactly the (negative) dynamic
cap `-2`, for the same tie-breaking draw `1/2` — the expiring call is not
strictly higher. -/
theorem C2_counterexample :
    calculateRecipeScore jsMathModel bigRecipe [c2UsedExpiring] (6/5)
        ⟨[], []⟩ 1 (1/2) = -2 ∧
    calculateRecipeScore jsMathModel bigRecipe [c2UsedFresh] (6/5)
        ⟨[], []⟩ 1 (1/2) = -2 ∧
    ¬ ((-2 : ℚ) > -2) := by
  with_unfolding_all decide

/-- Folding `+ f x` equals adding the mapped sum. -/
theorem foldl_add_map {α : Type} (f : α → ℚ) :
    ∀ (l : List α) (a : ℚ), l.foldl (fun s x => s + f x) a = a + (l.map f).sum := by
  intro l
  induction l with
  | nil => intro a; simp
  | cons x xs ih =>
    intro a
    simp only [List.foldl_cons, List.map_cons, List.sum_cons, ih]
    ring

/-- `jsRound` is monotone. -/
theorem jsRound_mono {x y : ℚ} (h : x ≤ y) : jsRound x ≤ jsRound y := by
  have h2 := Int.floor_mono (show x + 1/2 ≤ y + 1/2 by linarith)
  unfold jsRound
  exact_mod_cast h2

/-- Perfect-match status only depends on the missed list and the length. -/
theorem csPerfect_congr (recipe : Recipe) (A B : List UsedIngredientWithExpiry)
    (hlen : A.length = B.length) (hmissed : csMissed recipe A = csMissed recipe B) :
    csPerfect recipe A ↔ csPerfect recipe B := by
  unfold csPerfect
  rw [hlen, hmissed]

/-- Coverage only depends on the length. -/
theorem csCoverage_congr (recipe : Recipe) (A B : List UsedIngredientWithExpiry)
    (hlen : A.length = B.length) :
    csCoverage recipe A = csCoverage recipe B := by
  unfold csCoverage
  rw [hlen]

/-- Average quality only depends on the quality sum and the length. -/
theorem csAvg_congr (A B : List UsedIngredientWithExpiry)
    (hlen : A.length = B.length) (hqsum : csQualitySum A = csQualitySum B) :
    csAvg A = csAvg B := by
  unfold csAvg
  rw [hlen, hqsum]

/-- The expiry-based ceiling grows with the expiring count. -/
theorem csExpiryBasedMax_mono (A B : List UsedIngredientWithExpiry)
    (helen : (csExpiring B).length ≤ (csExpiring A).length) :
    csExpiryBasedMax B ≤ csExpiryBasedMax A := by
  unfold csExpiryBasedMax
  have : ((csExpiring B).length : ℚ) ≤ ((csExpiring A).length : ℚ) := by
    exact_mod_cast helen
  gcongr

/-- The dynamic score cap grows with the expiring count, all else equal. -/
theorem csCap_mono (recipe : Recipe) (A B : List UsedIngredientWithExpiry)
    (hlen : A.length = B.length) (hmissed : csMissed recipe A = csMissed recipe B)
    (helen : (csExpiring B).length ≤ (csExpiring A).length) :
    csCap recipe B ≤ csCap recipe A := by
  have hperf := csPerfect_congr recipe A B hlen hmissed
  have hebm := csExpiryBasedMax_mono A B helen
  unfold csCap
  rw [csCoverage_congr recipe A B hlen, hmissed]
  by_cases hp : csPerfect recipe B
  · rw [if_pos hp, if_pos (hperf.2 hp)]
    exact min_le_min le_rfl hebm
  · rw [if_neg hp, if_neg (fun h => hp (hperf.1 h))]
    exact min_le_min (by linarith) le_rfl

/-- The per-item expiry boost is never negative. -/
theorem csBoostPerItem_nonneg (recipe : Recipe) : 0 ≤ csBoostPerItem recipe := by
  unfold csBoostPerItem
  have h2 : (0 : ℚ) ≤ 15 / max 1 (recipe.ingredients.length : ℚ) := by positivity
  exact le_min (by norm_num) h2

/-- The expiry bonus grows with the expiring count, all else equal. -/
theorem csExpiryBonus_mono (recipe : Recipe) (A B : List UsedIngredientWithExpiry)
    (hlen : A.length = B.length)
    (helen : (csExpiring B).length ≤ (csExpiring A).length) :
    csExpiryBonus recipe B ≤ csExpiryBonus recipe A := by
  unfold csExpiryBonus csExpiryRatio
  rw [hlen]
  have he : ((csExpiring B).length : ℚ) ≤ ((csExpiring A).length : ℚ) := by
    exact_mod_cast helen
  have hm : (0 : ℚ) < max 1 ((B.length : ℚ)) :=
    lt_of_lt_of_le zero_lt_one (le_max_left _ _)
  have hb := csBoostPerItem_nonneg recipe
  have h1 : ((csExpiring B).length : ℚ) * csBoostPerItem recipe ≤
      ((csExpiring A).length : ℚ) * csBoostPerItem recipe :=
    mul_le_mul_of_nonneg_right he hb
  have h2 : ((csExpiring B).length : ℚ) / max 1 ((B.length : ℚ)) * 20 ≤
      ((csExpiring A).length : ℚ) / max 1 ((B.length : ℚ)) * 20 := by
    gcongr
  linarith

/-- The base score grows with the expiring count, all else equal. -/
theorem csBase_mono (M : JsMath) (recipe : Recipe) (nInfo : NutritionInfo)
    (A B : List UsedIngredientWithExpiry) (boost : ℚ)
    (hlen : A.length = B.length) (hqsum : csQualitySum A = csQualitySum B)
    (helen : (csExpiring B).length ≤ (csExpiring A).length) :
    csBase M recipe B boost nInfo ≤ csBase M recipe A boost nInfo := by
  unfold csBase
  rw [hlen, csAvg_congr A B hlen hqsum, csCoverage_congr recipe A B hlen]
  have := csExpiryBonus_mono recipe A B hlen helen
  linarith

/-- The pre-jitter score grows with the expiring count, all else equal. -/
theorem csFs4_mono (M : JsMath) (recipe : Recipe) (nInfo : NutritionInfo)
    (A B : List UsedIngredientWithExpiry) (boost : ℚ)
    (hlen : A.length = B.length) (hqsum : csQualitySum A = csQualitySum B)
    (hmissed : csMissed recipe A = csMissed recipe B)
    (helen : (csExpiring B).length ≤ (csExpiring A).length) :
    csFs4 M recipe B boost nInfo ≤ csFs4 M recipe A boost nInfo := by
  have hperf := csPerfect_congr recipe A B hlen hmissed
  have hbase := csBase_mono M recipe nInfo A B boost hlen hqsum helen
  have hpen : csPenalty M recipe A = csPenalty M recipe B := by
    unfold csPenalty
    rw [hmissed]
  unfold csFs4
  rw [hlen, hpen]
  have hfs2 : (if csPerfect recipe B then
        csBase M recipe B boost nInfo - csPenalty M recipe B + 12
      else csBase M recipe B boost nInfo - csPenalty M recipe B) ≤
      (if csPerfect recipe A then
        csBase M recipe A boost nInfo - csPenalty M recipe B + 12
      else csBase M recipe A boost nInfo - csPenalty M recipe B) := by
    by_cases hp : csPerfect recipe B
    · rw [if_pos hp, if_pos (hperf.2 hp)]
      linarith
    · rw [if_neg hp, if_neg (fun h => hp (hperf.1 h))]
      linarith
  have hfs3 : (if B.length < 3 then
        (if csPerfect recipe B then
          csBase M recipe B boost nInfo - csPenalty M recipe B + 12
        else csBase M recipe B boost nInfo - csPenalty M recipe B) -
          (3 - (B.length : ℚ)) * 15
      else (if csPerfect recipe B then
        csBase M recipe B boost nInfo - csPenalty M recipe B + 12
      else csBase M recipe B boost nInfo - csPenalty M recipe B)) ≤
      (if B.length < 3 then
        (if csPerfect recipe A then
          csBase M recipe A boost nInfo - csPenalty M recipe B + 12
        else csBase M recipe A boost nInfo - csPenalty M recipe B) -
          (3 - (B.length : ℚ)) * 15
      else (if csPerfect recipe A then
        csBase M recipe A boost nInfo - csPenalty M recipe B + 12
      else csBase M recipe A boost nInfo - csPenalty M recipe B)) := by
    by_cases h3 : B.length < 3
    · rw [if_pos h3, if_pos h3]
      linarith
    · rw [if_neg h3, if_neg h3]
      exact hfs2
  by_cases hA3 : 3 ≤ (csExpiring A).length
  · rw [if_pos hA3]
    by_cases hB3 : 3 ≤ (csExpiring B).length
    · rw [if_pos hB3]
      linarith
    · rw [if_neg hB3]
      linarith
  · rw [if_neg hA3, if_neg (fun h => hA3 (le_trans h helen))]
    exact hfs3

/-- The critical-items floor grows with the expiring count and quantity,
all else equal (for a monotone `sqrt`). -/
theorem csFloor_mono (M : JsMath) (recipe : Recipe)
    (A B : List UsedIngredientWithExpiry)
    (hsqrt : ∀ x y : ℚ, x ≤ y → M.sqrt x ≤ M.sqrt y)
    (hlen : A.length = B.length)
    (hmissed : csMissed recipe A = csMissed recipe B)
    (helen : (csExpiring B).length ≤ (csExpiring A).length)
    (hquant : csQuantitySum (csExpiring B) ≤ csQuantitySum (csExpiring A)) :
    csFloor M recipe B ≤ csFloor M recipe A := by
  have hperf := csPerfect_congr recipe A B hlen hmissed
  have he : ((csExpiring B).length : ℚ) ≤ ((csExpiring A).length : ℚ) := by
    exact_mod_cast helen
  have hc : (0 : ℚ) ≤
      (if (recipe.ingredients.length : ℚ) = 0 then 17/2
       else min (17/2) (25 / (recipe.ingredients.length : ℚ))) := by
    by_cases h0 : (recipe.ingredients.length : ℚ) = 0
    · rw [if_pos h0]; norm_num
    · rw [if_neg h0]
      have : (0 : ℚ) ≤ 25 / (recipe.ingredients.length : ℚ) := by positivity
      exact le_min (by norm_num) this
  have hsq := hsqrt _ _ hquant
  have h2 : ((csExpiring B).length : ℚ) *
        (if (recipe.ingredients.length : ℚ) = 0 then 17/2
         else min (17/2) (25 / (recipe.ingredients.length : ℚ))) +
        M.sqrt (csQuantitySum (csExpiring B)) * (5/2) ≤
      ((csExpiring A).length : ℚ) *
        (if (recipe.ingredients.length : ℚ) = 0 then 17/2
         else min (17/2) (25 / (recipe.ingredients.length : ℚ))) +
        M.sqrt (csQuantitySum (csExpiring A)) * (5/2) := by
    have := mul_le_mul_of_nonneg_right he hc
    linarith
  unfold csFloor
  rw [hmissed]
  by_cases hp : csPerfect recipe B
  · rw [if_pos hp, if_pos (hperf.2 hp)]
    exact min_le_min le_rfl h2
  · rw [if_neg hp, if_neg (fun h => hp (hperf.1 h))]
    exact min_le_min le_rfl h2

/-- Main-branch monotonicity: an extra expiring ingredient (all else
equal) never lowers the score, for any pair of tie-breaking draws. -/
theorem csMainScore_mono (M : JsMath) (recipe : Recipe) (nInfo : NutritionInfo)
    (A B : List UsedIngredientWithExpiry) (boost r1 r2 : ℚ)
    (hsqrt : ∀ x y : ℚ, x ≤ y → M.sqrt x ≤ M.sqrt y)
    (hr1 : 0 ≤ r1) (hr2 : r2 < 1)
    (hlen : A.length = B.length)
    (helen : (csExpiring A).length = (csExpiring B).length + 1)
    (hqsum : csQualitySum A = csQualitySum B)
    (hmissed : csMissed recipe A = csMissed recipe B)
    (hquant : csQuantitySum (csExpiring B) ≤ csQuantitySum (csExpiring A)) :
    csMainScore M recipe B boost nInfo r2 ≤
      csMainScore M recipe A boost nInfo r1 := by
  have helen2 : (csExpiring B).length ≤ (csExpiring A).length := by omega
  have hcap := csCap_mono recipe A B hlen hmissed helen2
  have hfs4 := csFs4_mono M recipe nInfo A B boost hlen hqsum hmissed helen2
  have hfloor := csFloor_mono M recipe A B hsqrt hlen hmissed helen2 hquant
  have hmax : max (csFloor M recipe B) (csFs4 M recipe B boost nInfo) ≤
      max (csFloor M recipe A) (csFs4 M recipe A boost nInfo) :=
    max_le_max hfloor hfs4
  have heq : ((csExpiring A).length : ℚ) = ((csExpiring B).length : ℚ) + 1 := by
    exact_mod_cast helen
  unfold csMainScore
  refine min_le_min hcap (max_le_max le_rfl (jsRound_mono ?_))
  by_cases hm : 2 < boost
  · rw [if_pos hm, if_pos hm]
    rw [heq]
    nlinarith [hmax]
  · rw [if_neg hm, if_neg hm]
    rw [heq]
    nlinarith [hmax]

/-- C2 (amended): two `calculateRecipeScore` calls identical except that
one used ingredient has `daysUntilExpiry ≤ 7` in the first and `> 7` in
the second give the expiring call a score at least as high, for every
pair of tie-breaking draws; strictness fails in general (see the
counterexample, where both calls hit the same negative cap). -/
theorem C2_expiring_score_ge (M : JsMath) (recipe : Recipe)
    (pre post : List UsedIngredientWithExpiry) (ing : UsedIngredientWithExpiry)
    (dA dB mealTypeBoost bmbA bmbB r1 r2 : ℚ) (nInfo : NutritionInfo)
    (hsqrt : ∀ x y : ℚ, x ≤ y → M.sqrt x ≤ M.sqrt y)
    (hdA : dA ≤ 7) (hdB : ¬ dB ≤ 7) (hq : 0 ≤ ing.quantity)
    (hr1 : 0 ≤ r1) (hr2 : r2 < 1) :
    calculateRecipeScore M recipe
        (pre ++ { ing with daysUntilExpiry := dB } :: post)
        mealTypeBoost nInfo bmbB r2 ≤
      calculateRecipeScore M recipe
        (pre ++ { ing with daysUntilExpiry := dA } :: post)
        mealTypeBoost nInfo bmbA r1 := by
  set iA : UsedIngredientWithExpiry := { ing with daysUntilExpiry := dA } with hiA
  set iB : UsedIngredientWithExpiry := { ing with daysUntilExpiry := dB } with hiB
  have hlen : (pre ++ iA :: post).length = (pre ++ iB :: post).length := by simp
  have hexpA : csExpiring (pre ++ iA :: post) =
      csExpiring pre ++ iA :: csExpiring post := by
    unfold csExpiring
    simp [List.filter_append, List.filter_cons, hiA, hdA]
  have hexpB : csExpiring (pre ++ iB :: post) =
      csExpiring pre ++ csExpiring post := by
    unfold csExpiring
    simp [List.filter_append, List.filter_cons, hiB, hdB]
  have helen : (csExpiring (pre ++ iA :: post)).length =
      (csExpiring (pre ++ iB :: post)).length + 1 := by
    rw [hexpA, hexpB]
    simp
    omega
  have hqsum : csQualitySum (pre ++ iA :: post) =
      csQualitySum (pre ++ iB :: post) := by
    unfold csQualitySum
    rw [foldl_add_map, foldl_add_map]
    simp [hiA, hiB]
  have hmissed : csMissed recipe (pre ++ iA :: post) =
      csMissed recipe (pre ++ iB :: post) := by
    unfold csMissed csMatches
    simp [hiA, hiB, matchedWithLower]
  have hquant : csQuantitySum (csExpiring (pre ++ iB :: post)) ≤
      csQuantitySum (csExpiring (pre ++ iA :: post)) := by
    rw [hexpA, hexpB]
    unfold csQuantitySum
    rw [foldl_add_map, foldl_add_map]
    have hnn : 0 ≤ jsOrQ iA.quantity 1 := by
      unfold jsOrQ
      by_cases h0 : iA.quantity = 0
      · rw [if_pos h0]; norm_num
      · rw [if_neg h0]
        simpa [hiA] using hq
    simp [hiA]
    linarith [hnn]
  have hA0 : ¬ (pre ++ iA :: post).length = 0 := by simp
  have hB0 : ¬ (pre ++ iB :: post).length = 0 := by simp
  rw [calculateRecipeScore, calculateRecipeScore, if_neg hA0, if_neg hB0]
  exact csMainScore_mono M recipe nInfo (pre ++ iA :: post) (pre ++ iB :: post)
    mealTypeBoost r1 r2 hsqrt hr1 hr2 hlen helen hqsum hmissed hquant

/-- Witness for C2: the expiring variant of a concrete single-ingredient
call scores at least the fresh variant. -/
theorem C2_expiring_score_ge_witness :
    calculateRecipeScore flatJsMath bigRecipe
        ([] ++ { c2UsedExpiring with daysUntilExpiry := 999 } :: []) (6/5)
        ⟨[], []⟩ 1 (1/2) ≤
      calculateRecipeScore flatJsMath bigRecipe
        ([] ++ { c2UsedExpiring with daysUntilExpiry := 3 } :: []) (6/5)
        ⟨[], []⟩ 1 0 :=
  C2_expiring_score_ge flatJsMath bigRecipe [] [] c2UsedExpiring 3 999 (6/5)
    1 1 0 (1/2) ⟨[], []⟩ (fun x y _ => le_refl 0) (by norm_num) (by norm_num)
    (by norm_num [c2UsedExpiring]) (by norm_num) (by norm_num)

set_option maxRecDepth 400000 in
/-- C1 counterexample: a full run of `findOptimalRecipeWithAlternatives`
on a network built by `buildFlowNetwork` returns the 22-ingredient recipe
with score `-2 < 0`: the dynamic cap
`min(expiryBasedMax - 8, 60 + round(32/22) - 3*21) = -2` is negative and
`Math.min` clamps the final score to it. -/
theorem C1_counterexample :
    c1Output.map (fun r => (r.id, r.score)) = [("r2", 32), ("r1", -2)] ∧
    ((-2 : ℚ) < 0) := by
  with_unfolding_all decide

/-- Rounding keeps integrality. -/
theorem jsRound_isInt (q : ℚ) : ∃ k : ℤ, jsRound q = (k : ℚ) :=
  ⟨⌊q + 1/2⌋, rfl⟩

/-- A minimum of integers is an integer. -/
theorem isInt_min {a b : ℚ} (ha : ∃ k : ℤ, a = (k : ℚ))
    (hb : ∃ k : ℤ, b = (k : ℚ)) : ∃ k : ℤ, min a b = (k : ℚ) := by
  obtain ⟨ka, rfl⟩ := ha
  obtain ⟨kb, rfl⟩ := hb
  exact ⟨min ka kb, by push_cast; rfl⟩

/-- A maximum of integers is an integer. -/
theorem isInt_max {a b : ℚ} (ha : ∃ k : ℤ, a = (k : ℚ))
    (hb : ∃ k : ℤ, b = (k : ℚ)) : ∃ k : ℤ, max a b = (k : ℚ) := by
  obtain ⟨ka, rfl⟩ := ha
  obtain ⟨kb, rfl⟩ := hb
  exact ⟨max ka kb, by push_cast; rfl⟩

/-- Every score leaving `normalizeScores` is an integer at most 100. -/
theorem normalizeScores_bounds (M : JsMath) (rn : ℕ → ℚ)
    (l : List RecipeScoreResult) :
    ∀ x ∈ normalizeScores M rn l, x.score ≤ 100 ∧ ∃ k : ℤ, x.score = (k : ℚ) := by
  intro x hx
  unfold normalizeScores at hx
  by_cases hmm : (l.map (fun r => r.score)).foldl min
      ((l.map (fun r => r.score)).headD 0) =
      (l.map (fun r => r.score)).foldl max ((l.map (fun r => r.score)).headD 0)
  · rw [if_pos hmm] at hx
    obtain ⟨p, _, rfl⟩ := List.mem_map.1 hx
    refine ⟨le_trans (min_le_left _ _) (by norm_num), ?_⟩
    exact isInt_min ⟨100, by norm_num⟩ (isInt_max ⟨1, by norm_num⟩ (jsRound_isInt _))
  · rw [if_neg hmm] at hx
    obtain ⟨p, _, rfl⟩ := List.mem_map.1 hx
    refine ⟨le_trans (min_le_left _ _) (by norm_num), ?_⟩
    exact isInt_min ⟨100, by norm_num⟩ (jsRound_isInt _)

/-- Every score leaving the optimizer is an integer at most 100. -/
theorem findOptimal_score_bounds (M : JsMath) (graph : FlowNetwork)
    (wi : List WeightedIngredient) (recipes : List Recipe) (count : ℕ)
    (rs rf rn : ℕ → ℚ) :
    ∀ x ∈ findOptimalRecipeWithAlternatives M graph wi recipes count rs rf rn,
      x.score ≤ 100 ∧ ∃ k : ℤ, x.score = (k : ℚ) := by
  intro x hx
  unfold findOptimalRecipeWithAlternatives at hx
  exact normalizeScores_bounds M rn _ x ((List.take_sublist _ _).subset hx)

/-- Every score leaving the service normalisation pass lies in `[1, 100]`
and is an integer. -/
theorem serviceNormalizePass_bounds (rs : List RecipeScoreResult) :
    ∀ x ∈ serviceNormalizePass rs,
      1 ≤ x.score ∧ x.score ≤ 100 ∧ ∃ k : ℤ, x.score = (k : ℚ) := by
  intro x hx
  unfold serviceNormalizePass at hx
  obtain ⟨p, _, rfl⟩ := List.mem_map.1 hx
  refine ⟨le_min (by norm_num) (le_max_left _ _),
    le_trans (min_le_left _ _) (by norm_num), ?_⟩
  exact isInt_min ⟨100, by norm_num⟩ (isInt_max ⟨1, by norm_num⟩ (jsRound_isInt _))

/-- Rounding a value at most 100 stays at most 100. -/
theorem jsRound_le_100 {z : ℚ} (h : z ≤ 100) : jsRound z ≤ 100 := by
  have h1 : jsRound z ≤ jsRound 100 := jsRound_mono h
  have h2 : jsRound 100 = 100 := by
    unfold jsRound
    norm_num
  linarith

/-- Every score of the catch-branch fallback is an integer at most 100. -/
theorem findOptimalErrorFallback_bounds (recipes : List Recipe)
    (pmt : Option String) (count : ℕ) :
    ∀ x ∈ findOptimalErrorFallback recipes pmt count,
      x.score ≤ 100 ∧ ∃ k : ℤ, x.score = (k : ℚ) := by
  intro x hx
  unfold findOptimalErrorFallback at hx
  obtain ⟨p, _, rfl⟩ := List.mem_map.1 hx
  exact ⟨jsRound_le_100 (min_le_left _ _), jsRound_isInt _⟩

/-- Every score leaving `getRecommendedRecipes` lies in `[1, 100]` and is
an integer. -/
theorem getRecommended_score_bounds (M : JsMath) (ings : List DbIngredient)
    (drecipes : List DbRecipe) (opts : RecommendationOptions) (count : ℕ)
    (rr rs rf rn : ℕ → ℚ) :
    ∀ x ∈ getRecommendedRecipes M ings drecipes opts count rr rs rf rn,
      1 ≤ x.score ∧ x.score ≤ 100 ∧ ∃ k : ℤ, x.score = (k : ℚ) := by
  intro x hx
  unfold getRecommendedRecipes at hx
  split at hx
  · simp at hx
  · split at hx
    · simp at hx
    · unfold getRecommendedMain sortByScoreDesc at hx
      exact serviceNormalizePass_bounds _ x (List.mem_mergeSort.1 hx)

/-- C1 (amended): every result of `findOptimalRecipeWithAlternatives`
(normal branch and no-valid-recipes fallback) and of the catch-branch
fallback carries an integer score at most 100 — the lower bound 0 of the
claim fails, see the counterexample — while every result of
`getRecommendedRecipes` carries an integer score in `[1, 100]` (for
recipe documents with non-empty ingredient lists; an empty list would
divide 0 by 0 in the service normalisation pass). -/
theorem C1_score_range_amended (M : JsMath) (graph : FlowNetwork)
    (wi : List WeightedIngredient) (recipes : List Recipe)
    (pmt : Option String) (count count2 : ℕ) (rr rs rf rn : ℕ → ℚ)
    (ings : List DbIngredient) (drecipes : List DbRecipe)
    (opts : RecommendationOptions)
    (hnz : ∀ r ∈ drecipes, r.ingredients ≠ []) :
    (∀ x ∈ findOptimalRecipeWithAlternatives M graph wi recipes count rs rf rn,
      x.score ≤ 100 ∧ ∃ k : ℤ, x.score = (k : ℚ)) ∧
    (∀ x ∈ findOptimalErrorFallback recipes pmt count,
      x.score ≤ 100 ∧ ∃ k : ℤ, x.score = (k : ℚ)) ∧
    (∀ x ∈ getRecommendedRecipes M ings drecipes opts count2 rr rs rf rn,
      1 ≤ x.score ∧ x.score ≤ 100 ∧ ∃ k : ℤ, x.score = (k : ℚ)) :=
  ⟨findOptimal_score_bounds M graph wi recipes count rs rf rn,
   findOptimalErrorFallback_bounds recipes pmt count,
   getRecommended_score_bounds M ings drecipes opts count2 rr rs rf rn⟩

/-- Witness for C1 on concrete one-ingredient inputs. -/
theorem C1_score_range_amended_witness :
    (∀ x ∈ findOptimalRecipeWithAlternatives jsMathModel c1Graph [invMilk]
        [bigRecipe, smallRecipe] 4 halfRand halfRand halfRand,
      x.score ≤ 100 ∧ ∃ k : ℤ, x.score = (k : ℚ)) ∧
    (∀ x ∈ findOptimalErrorFallback [bigRecipe, smallRecipe] (some "dinner") 4,
      x.score ≤ 100 ∧ ∃ k : ℤ, x.score = (k : ℚ)) ∧
    (∀ x ∈ getRecommendedRecipes jsMathModel [dbMilk] [dbSmallRecipe]
        ⟨"any", true, none⟩ 5 halfRand halfRand halfRand halfRand,
      1 ≤ x.score ∧ x.score ≤ 100 ∧ ∃ k : ℤ, x.score = (k : ℚ)) :=
  C1_score_range_amended jsMathModel c1Graph [invMilk] [bigRecipe, smallRecipe]
    (some "dinner") 4 5 halfRand halfRand halfRand halfRand [dbMilk]
    [dbSmallRecipe] ⟨"any", true, none⟩ (by decide)

/-- The optimizer never returns more than `count` results. -/
theorem findOptimal_length_le (M : JsMath) (graph : FlowNetwork)
    (wi : List WeightedIngredient) (recipes : List Recipe) (count : ℕ)
    (rs rf rn : ℕ → ℚ) :
    (findOptimalRecipeWithAlternatives M graph wi recipes count rs rf rn).length ≤
      count := by
  unfold findOptimalRecipeWithAlternatives
  simp [List.length_take]

/-- The stable sort by descending score is sorted. -/
theorem sortByScoreDesc_sorted (l : List RecipeScoreResult) :
    List.Pairwise (fun a b => b.score ≤ a.score) (sortByScoreDesc l) := by
  unfold sortByScoreDesc
  refine List.Pairwise.imp ?_ (List.sorted_mergeSort ?_ ?_ l)
  · intro a b h
    exact of_decide_eq_true h
  · intro a b c hab hbc
    have h1 : b.score ≤ a.score := of_decide_eq_true hab
    have h2 : c.score ≤ b.score := of_decide_eq_true hbc
    exact decide_eq_true (le_trans h2 h1)
  · intro a b
    rcases le_total b.score a.score with h | h
    · simp [h]
    · simp [h]

/-- Sorting preserves the length. -/
theorem sortByScoreDesc_length (l : List RecipeScoreResult) :
    (sortByScoreDesc l).length = l.length := by
  unfold sortByScoreDesc
  exact List.length_mergeSort l

/-- C8: `getRecommendedRecipes` returns at most `count` results, sorted in
descending order of score, and the length bound also holds for every
branch of `findOptimalRecipeWithAlternatives` (normal, no-valid-recipes
fallback, and the catch-branch fallback). -/
theorem C8_count_and_order (M : JsMath) (graph : FlowNetwork)
    (wi : List WeightedIngredient) (recipes : List Recipe)
    (pmt : Option String) (count count2 : ℕ) (rr rs rf rn : ℕ → ℚ)
    (ings : List DbIngredient) (drecipes : List DbRecipe)
    (opts : RecommendationOptions) :
    (findOptimalRecipeWithAlternatives M graph wi recipes count rs rf rn).length ≤
      count ∧
    (findOptimalErrorFallback recipes pmt count).length ≤ count ∧
    (getRecommendedRecipes M ings drecipes opts count2 rr rs rf rn).length ≤
      count2 ∧
    List.Pairwise (fun a b => b.score ≤ a.score)
      (getRecommendedRecipes M ings drecipes opts count2 rr rs rf rn) := by
  refine ⟨findOptimal_length_le M graph wi recipes count rs rf rn, ?_, ?_, ?_⟩
  · unfold findOptimalErrorFallback
    simp [List.length_take]
  · unfold getRecommendedRecipes
    split
    · simp
    · split
      · simp
      · unfold getRecommendedMain
        rw [sortByScoreDesc_length]
        unfold serviceNormalizePass addRecipesMetadata
        simp only [List.length_map]
        exact findOptimal_length_le _ _ _ _ _ _ _ _
  · unfold getRecommendedRecipes
    split
    · exact List.Pairwise.nil
    · split
      · exact List.Pairwise.nil
      · unfold getRecommendedMain
        exact sortByScoreDesc_sorted _

-- Flow conservation: entry shapes, residual construction, BFS paths and the
-- Edmonds-Karp loop invariant

theorem foldl_preserve {α σ : Type} (Inv : σ → Prop) (f : σ → α → σ)
    (l : List α) (s0 : σ) (h0 : Inv s0)
    (hstep : ∀ s a, a ∈ l → Inv s → Inv (f s a)) : Inv (l.foldl f s0) := by
  induction l generalizing s0 with
  | nil => exact h0
  | cons a rest ih =>
    exact ih (f s0 a) (hstep s0 a (by simp) h0)
      (fun s b hb hs => hstep s b (by simp [hb]) hs)

theorem mem_setEdge {es : EdgeMap} {k : EdgeKey} {e : Edge} {p : EdgeKey × Edge}
    (hp : p ∈ setEdge es k e) : p ∈ es ∨ p = (k, e) := by
  induction es with
  | nil => simpa [setEdge] using hp
  | cons q rest ih =>
    by_cases hk : q.1 = k
    · rw [show setEdge (q :: rest) k e = (q.1, e) :: rest by
        rw [(show (q :: rest) = ((q.1, q.2) :: rest) by rfl)]
        simp [setEdge, hk]] at hp
      rcases List.mem_cons.1 hp with h | h
      · right; rw [h, hk]
      · left; exact List.mem_cons_of_mem _ h
    · rw [show setEdge (q :: rest) k e = (q.1, q.2) :: setEdge rest k e by
        rw [(show (q :: rest) = ((q.1, q.2) :: rest) by rfl)]
        simp [setEdge, hk]] at hp
      rcases List.mem_cons.1 hp with h | h
      · left; rw [h]; exact List.mem_cons_self _ _
      · rcases ih h with h2 | h2
        · left; exact List.mem_cons_of_mem _ h2
        · right; exact h2

theorem keysOf_setEdge (es : EdgeMap) (k : EdgeKey) (e : Edge) :
    keysOf (setEdge es k e) = keysOf es ∨
    keysOf (setEdge es k e) = keysOf es ++ [k] := by
  induction es with
  | nil => right; rfl
  | cons q rest ih =>
    by_cases hk : q.1 = k
    · left
      rw [show setEdge (q :: rest) k e = (q.1, e) :: rest by
        rw [(show (q :: rest) = ((q.1, q.2) :: rest) by rfl)]
        simp [setEdge, hk]]
      simp [keysOf]
    · rw [show setEdge (q :: rest) k e = (q.1, q.2) :: setEdge rest k e by
        rw [(show (q :: rest) = ((q.1, q.2) :: rest) by rfl)]
        simp [setEdge, hk]]
      rcases ih with h | h
      · left; simp only [keysOf, List.map_cons] at h ⊢; rw [h]
      · right; simp only [keysOf, List.map_cons] at h ⊢; rw [h]; rfl

theorem nodup_keysOf_setEdge {es : EdgeMap} (k : EdgeKey) (e : Edge)
    (h : (keysOf es).Nodup) : (keysOf (setEdge es k e)).Nodup := by
  induction es with
  | nil => simp [setEdge, keysOf]
  | cons q rest ih =>
    simp only [keysOf, List.map_cons, List.nodup_cons] at h
    by_cases hk : q.1 = k
    · rw [show setEdge (q :: rest) k e = (q.1, e) :: rest by
        rw [(show (q :: rest) = ((q.1, q.2) :: rest) by rfl)]
        simp [setEdge, hk]]
      simp only [keysOf, List.map_cons, List.nodup_cons]
      exact h
    · rw [show setEdge (q :: rest) k e = (q.1, q.2) :: setEdge rest k e by
        rw [(show (q :: rest) = ((q.1, q.2) :: rest) by rfl)]
        simp [setEdge, hk]]
      simp only [keysOf, List.map_cons, List.nodup_cons]
      constructor
      · intro hc
        have hc2 : q.1 ∈ keysOf (setEdge rest k e) := hc
        rcases keysOf_setEdge rest k e with hko | hko
        · rw [hko] at hc2
          exact h.1 hc2
        · rw [hko] at hc2
          rcases List.mem_append.1 hc2 with h2 | h2
          · exact h.1 h2
          · simp at h2
            exact hk h2
      · exact ih h.2

theorem lookup_of_mem_nodup {es : EdgeMap} {k : EdgeKey} {e : Edge}
    (hnd : (keysOf es).Nodup) (hmem : (k, e) ∈ es) :
    getEdge es k = some e := by
  induction es with
  | nil => simp at hmem
  | cons q rest ih =>
    simp only [keysOf, List.map_cons, List.nodup_cons] at hnd
    rcases List.mem_cons.1 hmem with h | h
    · rw [← h]
      simp [getEdge, List.lookup]
    · have hk : k ≠ q.1 := by
        intro hc
        apply hnd.1
        rw [← hc]
        exact List.mem_map.2 ⟨(k, e), h, rfl⟩
      have : (k == q.1) = false := by
        simp [hk]
      rw [show (q :: rest) = ((q.1, q.2) :: rest) by rfl]
      simp only [getEdge, List.lookup, this]
      exact ih hnd.2 h

theorem list_sum_map_add {α : Type} (f g : α → ℚ) (l : List α) :
    (l.map (fun x => f x + g x)).sum = (l.map f).sum + (l.map g).sum := by
  induction l with
  | nil => simp
  | cons a rest ih => simp [ih]; ring

theorem list_sum_map_zero {α : Type} (l : List α) (f : α → ℚ)
    (hf : ∀ k ∈ l, f k = 0) : (l.map f).sum = 0 := by
  induction l with
  | nil => simp
  | cons a rest ih =>
    simp only [List.map_cons, List.sum_cons, hf a (by simp)]
    rw [ih (fun k hk => hf k (by simp [hk]))]
    simp

theorem list_sum_map_single {α : Type} [DecidableEq α] (l : List α)
    (f : α → ℚ) (k0 : α) (hk0 : k0 ∈ l) (hnd : l.Nodup)
    (hf : ∀ k ∈ l, k ≠ k0 → f k = 0) : (l.map f).sum = f k0 := by
  induction l with
  | nil => simp at hk0
  | cons a rest ih =>
    simp only [List.nodup_cons] at hnd
    rcases List.mem_cons.1 hk0 with h | h
    · subst h
      have hz : (rest.map f).sum = 0 :=
        list_sum_map_zero rest f (fun k hk =>
          hf k (List.mem_cons_of_mem _ hk) (fun hc => hnd.1 (hc ▸ hk)))
      simp [hz]
    · have ha : f a = 0 := by
        refine hf a (by simp) ?_
        intro hc
        exact hnd.1 (hc ▸ h)
      simp only [List.map_cons, List.sum_cons, ha, zero_add]
      exact ih h hnd.2 (fun k hk hne => hf k (by simp [hk]) hne)

theorem le_foldl_min : ∀ (l : List ℚ) (a c : ℚ), c ≤ a → (∀ x ∈ l, c ≤ x) →
    c ≤ l.foldl min a := by
  intro l
  induction l with
  | nil => intro a c hc _; simpa using hc
  | cons b rest ih =>
    intro a c hc hl
    simp only [List.foldl_cons]
    exact ih (min a b) c (le_min hc (hl b (by simp)))
      (fun x hx => hl x (by simp [hx]))

theorem foldl_min_le_init : ∀ (l : List ℚ) (a : ℚ), l.foldl min a ≤ a := by
  intro l
  induction l with
  | nil => intro a; simp
  | cons b rest ih =>
    intro a
    simp only [List.foldl_cons]
    exact le_trans (ih (min a b)) (min_le_left _ _)

theorem foldl_min_le_mem : ∀ (l : List ℚ) (a x : ℚ), x ∈ l →
    l.foldl min a ≤ x := by
  intro l
  induction l with
  | nil => intro a x hx; simp at hx
  | cons b rest ih =>
    intro a x hx
    simp only [List.foldl_cons]
    rcases List.mem_cons.1 hx with h | h
    · subst h
      exact le_trans (foldl_min_le_init rest (min a x)) (min_le_right _ _)
    · exact ih (min a b) x h

theorem head_pre {p x : String} {c : Char} (h : p.data.head? = some c) :
    (p ++ x).data.head? = some c := by
  rw [String.data_append]
  cases hp : p.data with
  | nil => rw [hp] at h; simp at h
  | cons a rest =>
    rw [hp] at h
    simp at h
    simp [hp, h]

theorem goodKey_snd_head {k : EdgeKey} (h : GoodKey k) :
    k.2.data.head? = some 'i' ∨ k.2.data.head? = some 'r' ∨
    k.2.data.head? = some 't' := by
  rcases h with ⟨x, rfl⟩ | ⟨x, y, rfl⟩ | ⟨y, rfl⟩ | ⟨c, y, rfl⟩ | ⟨y, rfl⟩
  · exact Or.inl (head_pre rfl)
  · exact Or.inr (Or.inl (head_pre rfl))
  · exact Or.inr (Or.inr rfl)
  · exact Or.inr (Or.inl (head_pre rfl))
  · exact Or.inr (Or.inl (head_pre rfl))

theorem goodKey_fst_head {k : EdgeKey} (h : GoodKey k) :
    k.1.data.head? = some 's' ∨ k.1.data.head? = some 'i' ∨
    k.1.data.head? = some 'r' ∨ k.1.data.head? = some 'n' ∨
    k.1.data.head? = some 'b' := by
  rcases h with ⟨x, rfl⟩ | ⟨x, y, rfl⟩ | ⟨y, rfl⟩ | ⟨c, y, rfl⟩ | ⟨y, rfl⟩
  · exact Or.inl rfl
  · exact Or.inr (Or.inl (head_pre rfl))
  · exact Or.inr (Or.inr (Or.inl (head_pre rfl)))
  · exact Or.inr (Or.inr (Or.inr (Or.inl (head_pre rfl))))
  · exact Or.inr (Or.inr (Or.inr (Or.inr rfl)))

theorem goodKey_snd_ne_s {k : EdgeKey} (h : GoodKey k) : k.2 ≠ "s" := by
  intro hc
  have h2 := goodKey_snd_head h
  rw [hc] at h2
  rcases h2 with h2 | h2 | h2 <;> simp at h2

theorem goodKey_snd_i {k : EdgeKey} (h : GoodKey k)
    (hi : k.2.data.head? = some 'i') : ∃ x, k = ("s", "i_" ++ x) := by
  rcases h with ⟨x, rfl⟩ | ⟨x, y, rfl⟩ | ⟨y, rfl⟩ | ⟨c, y, rfl⟩ | ⟨y, rfl⟩
  · exact ⟨x, rfl⟩
  · have hr := @head_pre "r_" y 'r' rfl
    rw [hr] at hi
    simp at hi
  · simp at hi
  · have hr := @head_pre "r_" y 'r' rfl
    rw [hr] at hi
    simp at hi
  · have hr := @head_pre "r_" y 'r' rfl
    rw [hr] at hi
    simp at hi

theorem goodKey_not_rev {k : EdgeKey} (h : GoodKey k) :
    ¬ GoodKey (k.2, k.1) := by
  intro hrev
  rcases h with ⟨x, rfl⟩ | ⟨x, y, rfl⟩ | ⟨y, rfl⟩ | ⟨c, y, rfl⟩ | ⟨y, rfl⟩
  · exact goodKey_snd_ne_s hrev rfl
  · obtain ⟨x2, hx2⟩ := goodKey_snd_i hrev (head_pre rfl)
    have hfst : ("r_" ++ y : String) = "s" := congrArg Prod.fst hx2
    have := congrArg String.data hfst
    rw [String.data_append] at this
    simp at this
  · have h2 := goodKey_fst_head hrev
    simp only [] at h2
    rcases h2 with h2 | h2 | h2 | h2 | h2 <;> simp at h2
  · have h2 := goodKey_snd_head hrev
    simp only [] at h2
    have hn : (("n_" ++ c : String)).data.head? = some 'n' := head_pre rfl
    rcases h2 with h2 | h2 | h2 <;> rw [hn] at h2 <;> simp at h2
  · have h2 := goodKey_snd_head hrev
    simp only [] at h2
    rcases h2 with h2 | h2 | h2 <;> simp at h2

theorem EdgesOk_nil : EdgesOk [] := ⟨by simp, by simp [keysOf]⟩

theorem EdgesOk_setEdge {es : EdgeMap} {k : EdgeKey} {e : Edge}
    (hes : EdgesOk es) (hk : GoodKey k) (hf : e.flow = 0)
    (hc : 0 ≤ e.capacity) : EdgesOk (setEdge es k e) := by
  refine ⟨?_, nodup_keysOf_setEdge k e hes.2⟩
  intro p hp
  rcases mem_setEdge hp with h | h
  · exact hes.1 p h
  · rw [h]
    exact ⟨hk, hf, hc⟩

theorem normalizeQuantity_nonneg {q : ℚ} (hq : 0 ≤ q) (u : String) :
    0 ≤ normalizeQuantity q u := by
  simp only [normalizeQuantity]
  split_ifs <;> nlinarith [hq]

theorem sourceEdgeFor_flow (ing : WeightedIngredient) :
    (sourceEdgeFor ing).flow = 0 := rfl

theorem buildSourceEdges_ok (wi : List WeightedIngredient)
    (hq : ∀ ing ∈ wi, 0 ≤ ingQuantity ing) : EdgesOk (buildSourceEdges wi) := by
  unfold buildSourceEdges
  refine foldl_preserve EdgesOk _ wi [] EdgesOk_nil ?_
  intro es ing hing hes
  refine EdgesOk_setEdge hes (Or.inl ⟨ing.id, rfl⟩) rfl ?_
  exact normalizeQuantity_nonneg (hq ing hing) _

theorem recipeIngredientScan_ok (M : JsMath) (r : Recipe) (boost : ℚ)
    (wi : List WeightedIngredient) (es0 : EdgeMap)
    (hq : ∀ ing ∈ wi, 0 ≤ ingQuantity ing) (hes0 : EdgesOk es0) :
    EdgesOk (recipeIngredientScan M r boost wi es0).1 := by
  unfold recipeIngredientScan
  have key := foldl_preserve
    (fun (acc : EdgeMap × List MatchedIngredientInfo) => EdgesOk acc.1)
    (fun (acc : EdgeMap × List MatchedIngredientInfo) ingredient =>
      let bestMatch :=
        findBestIngredientMatch (jsToLower ingredient.name) r.ingredients
      if 6/10 ≤ bestMatch.quality then
        (setEdge acc.1 ("i_" ++ ingredient.id, "r_" ++ r.id)
          (ingredientRecipeEdge M ingredient bestMatch boost),
         acc.2 ++ [matchedInfoFor M ingredient bestMatch boost])
      else acc)
    wi (es0, ([] : List MatchedIngredientInfo)) hes0 ?_
  · exact key
  · intro s a ha hs
    simp only []
    split
    · refine EdgesOk_setEdge hs (Or.inr (Or.inl ⟨a.id, r.id, rfl⟩)) rfl ?_
      exact normalizeQuantity_nonneg (hq a ha) _
    · exact hs

theorem recipeStep_ok (M : JsMath) (pmt : String)
    (wi : List WeightedIngredient) (es : EdgeMap) (r : Recipe)
    (hq : ∀ ing ∈ wi, 0 ≤ ingQuantity ing) (hes : EdgesOk es) :
    EdgesOk (recipeStep M pmt wi es r) := by
  unfold recipeStep
  refine EdgesOk_setEdge (recipeIngredientScan_ok M r _ wi es hq hes)
    (Or.inr (Or.inr (Or.inl ⟨r.id, rfl⟩))) rfl ?_
  show (0 : ℚ) ≤ (recipeSinkEdge r _ _).capacity
  unfold recipeSinkEdge
  have h1 : (0 : ℚ) ≤ min 1
      ((((recipeIngredientScan M r (mealTypeBoostFor pmt r.mealType) wi es).2).length : ℚ) /
        ((if r.ingredients.length = 0 then 1 else r.ingredients.length : ℕ) : ℚ)) := by
    refine le_min (by norm_num) ?_
    positivity
  show (0 : ℚ) ≤ _ * 100
  nlinarith [h1]

theorem nutritionCategoryEdges_ok (category : String) (recipes : List Recipe)
    (es0 : EdgeMap) (hes0 : EdgesOk es0) :
    EdgesOk (nutritionCategoryEdges category recipes es0) := by
  unfold nutritionCategoryEdges
  refine foldl_preserve EdgesOk _ recipes es0 hes0 ?_
  intro es r hr hes
  simp only []
  split
  · refine EdgesOk_setEdge hes
      (Or.inr (Or.inr (Or.inr (Or.inl ⟨category, r.id, rfl⟩)))) rfl ?_
    show (0 : ℚ) ≤ ((nutritionMatchCount category r : ℕ) : ℚ)
    positivity
  · exact hes

theorem balancedMealEdges_ok (recipes : List Recipe) (es0 : EdgeMap)
    (hes0 : EdgesOk es0) : EdgesOk (balancedMealEdges recipes es0) := by
  unfold balancedMealEdges
  refine foldl_preserve EdgesOk _ recipes es0 hes0 ?_
  intro es r hr hes
  simp only []
  split
  · refine EdgesOk_setEdge hes
      (Or.inr (Or.inr (Or.inr (Or.inr ⟨r.id, rfl⟩)))) rfl ?_
    simp only [balancedEdge, Edge.base]
    positivity
  · exact hes

theorem buildFlowNetwork_edgesOk (M : JsMath) (wi : List WeightedIngredient)
    (recipes : List Recipe) (pmt : String)
    (hq : ∀ ing ∈ wi, 0 ≤ ingQuantity ing) :
    EdgesOk (buildFlowNetwork M wi recipes pmt).edges := by
  unfold buildFlowNetwork addNutritionNodes
  simp only []
  refine balancedMealEdges_ok _ _ ?_
  refine foldl_preserve EdgesOk _ nutritionCategories _ ?_ ?_
  · refine foldl_preserve EdgesOk _ (filterRecipesByMealType recipes pmt)
      (buildSourceEdges wi) (buildSourceEdges_ok wi hq) ?_
    intro es r hr hes
    exact recipeStep_ok M pmt wi es r hq hes
  · intro es c hc hes
    exact nutritionCategoryEdges_ok c _ es hes

theorem keysOf_append (es1 es2 : EdgeMap) :
    keysOf (es1 ++ es2) = keysOf es1 ++ keysOf es2 := by
  simp [keysOf]

theorem lookup_mem {es : EdgeMap} {k : EdgeKey} {e : Edge}
    (h : getEdge es k = some e) : (k, e) ∈ es := by
  induction es with
  | nil => simp [getEdge, List.lookup] at h
  | cons q rest ih =>
    rw [show (q :: rest) = ((q.1, q.2) :: rest) by rfl] at h ⊢
    by_cases hk : k = q.1
    · have hb : (k == q.1) = true := by simp [hk]
      simp only [getEdge, List.lookup, hb] at h
      have he : e = q.2 := by
        injection h with h2
        exact h2.symm
      rw [hk, he]
      exact List.mem_cons_self _ _
    · have hb : (k == q.1) = false := by simp [hk]
      simp only [getEdge, List.lookup, hb] at h
      exact List.mem_cons_of_mem _ (ih h)

theorem mem_keys_of_getEdge_some {es : EdgeMap} {k : EdgeKey} {e : Edge}
    (h : getEdge es k = some e) : k ∈ keysOf es :=
  List.mem_map.2 ⟨(k, e), lookup_mem h, rfl⟩

theorem getEdge_isSome_of_mem_keys {es : EdgeMap} {k : EdgeKey}
    (h : k ∈ keysOf es) : ∃ e, getEdge es k = some e := by
  induction es with
  | nil => simp [keysOf] at h
  | cons q rest ih =>
    by_cases hk : k = q.1
    · refine ⟨q.2, ?_⟩
      rw [show (q :: rest) = ((q.1, q.2) :: rest) by rfl]
      simp [getEdge, List.lookup, hk]
    · have h2 : k ∈ keysOf rest := by
        simp only [keysOf, List.map_cons, List.mem_cons] at h
        tauto
      obtain ⟨e, he⟩ := ih h2
      refine ⟨e, ?_⟩
      rw [show (q :: rest) = ((q.1, q.2) :: rest) by rfl]
      have hb : (k == q.1) = false := by simp [hk]
      simpa [getEdge, List.lookup, hb] using he

theorem getEdge_none_of_not_mem {es : EdgeMap} {k : EdgeKey}
    (h : k ∉ keysOf es) : getEdge es k = none := by
  cases hg : getEdge es k with
  | none => rfl
  | some e => exact absurd (mem_keys_of_getEdge_some hg) h

theorem not_mem_keys_of_getEdge_none {es : EdgeMap} {k : EdgeKey}
    (h : getEdge es k = none) : k ∉ keysOf es := by
  intro hc
  obtain ⟨e, he⟩ := getEdge_isSome_of_mem_keys hc
  rw [he] at h
  exact Option.noConfusion h

theorem getEdge_append_left {es1 es2 : EdgeMap} {k : EdgeKey}
    (h : k ∈ keysOf es1) : getEdge (es1 ++ es2) k = getEdge es1 k := by
  induction es1 with
  | nil => simp [keysOf] at h
  | cons q rest ih =>
    rw [show ((q :: rest) : EdgeMap) = ((q.1, q.2) :: rest) by rfl]
    by_cases hk : k = q.1
    · have hb : (k == q.1) = true := by simp [hk]
      simp [getEdge, List.lookup, hb]
    · have h2 : k ∈ keysOf rest := by
        simp only [keysOf, List.map_cons, List.mem_cons] at h
        tauto
      have hb : (k == q.1) = false := by simp [hk]
      simpa [getEdge, List.lookup, hb] using ih h2

theorem getEdge_append_right {es1 es2 : EdgeMap} {k : EdgeKey}
    (h : k ∉ keysOf es1) : getEdge (es1 ++ es2) k = getEdge es2 k := by
  induction es1 with
  | nil => rfl
  | cons q rest ih =>
    rw [show ((q :: rest) : EdgeMap) = ((q.1, q.2) :: rest) by rfl]
    have hk : ¬ k = q.1 := by
      intro hc
      exact h (by simp [keysOf, hc])
    have h2 : k ∉ keysOf rest := by
      intro hc
      exact h (by simp [keysOf] at hc ⊢; tauto)
    have hb : (k == q.1) = false := by simp [hk]
    simpa [getEdge, List.lookup, hb] using ih h2

theorem addReverseEdges_eq (original : EdgeMap) :
    addReverseEdges original = original.foldl (addRevStep original) original := rfl

theorem addRevStep_ok (orig acc : EdgeMap) (p : EdgeKey × Edge)
    (hp : p.1 ∈ keysOf orig) (hacc : RevOk orig acc) :
    RevOk orig (addRevStep orig acc p) ∧
    (p.1.2, p.1.1) ∈ keysOf (addRevStep orig acc p) ∧
    ∀ k ∈ keysOf acc, k ∈ keysOf (addRevStep orig acc p) := by
  unfold addRevStep
  cases hg : getEdge acc (p.1.2, p.1.1) with
  | some e =>
    exact ⟨hacc, mem_keys_of_getEdge_some hg, fun k hk => hk⟩
  | none =>
    obtain ⟨⟨extra, hacc1, hextra⟩, hnd⟩ := hacc
    have hnew : (p.1.2, p.1.1) ∉ keysOf acc := not_mem_keys_of_getEdge_none hg
    refine ⟨⟨⟨extra ++ [((p.1.2, p.1.1), reverseEdgeFor orig p.1)], ?_, ?_⟩, ?_⟩, ?_, ?_⟩
    · rw [hacc1, List.append_assoc]
    · intro q hq
      rcases List.mem_append.1 hq with h | h
      · exact hextra q h
      · have hq2 : q = ((p.1.2, p.1.1), reverseEdgeFor orig p.1) := by simpa using h
        rw [hq2]
      
        exact ⟨rfl, rfl, p.1, hp, rfl⟩
    · rw [keysOf_append]
      simp only [List.nodup_append]
      refine ⟨hnd, by simp [keysOf], ?_⟩
      intro k hk
      simp only [keysOf, List.map_cons, List.map_nil, List.mem_singleton]
      intro hc
      exact hnew (hc ▸ hk)
    · rw [keysOf_append]
      simp [keysOf]
    · intro k hk
      rw [keysOf_append]
      exact List.mem_append_left _ hk

theorem addRevAux (orig : EdgeMap) :
    ∀ (l : List (EdgeKey × Edge)) (acc : EdgeMap),
    (∀ p ∈ l, p.1 ∈ keysOf orig) → RevOk orig acc →
    RevOk orig (l.foldl (addRevStep orig) acc) ∧
    (∀ p ∈ l, (p.1.2, p.1.1) ∈ keysOf (l.foldl (addRevStep orig) acc)) ∧
    (∀ k ∈ keysOf acc, k ∈ keysOf (l.foldl (addRevStep orig) acc)) := by
  intro l
  induction l with
  | nil =>
    intro acc _ hacc
    exact ⟨hacc, by simp, fun k hk => hk⟩
  | cons p rest ih =>
    intro acc hl hacc
    simp only [List.foldl_cons]
    obtain ⟨h1, h2, h3⟩ := addRevStep_ok orig acc p (hl p (by simp)) hacc
    obtain ⟨ih1, ih2, ih3⟩ := ih (addRevStep orig acc p)
      (fun q hq => hl q (List.mem_cons_of_mem _ hq)) h1
    refine ⟨ih1, ?_, fun k hk => ih3 k (h3 k hk)⟩
    intro q hq
    rcases List.mem_cons.1 hq with h | h
    · rw [h]
      exact ih3 _ h2
    · exact ih2 q h

theorem addReverseEdges_ok {orig : EdgeMap} (h : EdgesOk orig) :
    RevOk orig (addReverseEdges orig) ∧
    ∀ k ∈ keysOf orig, (k.2, k.1) ∈ keysOf (addReverseEdges orig) := by
  rw [addReverseEdges_eq]
  have h0 : RevOk orig orig :=
    ⟨⟨[], by simp, by simp⟩, h.2⟩
  obtain ⟨h1, h2, _⟩ := addRevAux orig orig orig
    (fun p hp => List.mem_map.2 ⟨p, hp, rfl⟩) h0
  refine ⟨h1, ?_⟩
  intro k hk
  obtain ⟨p, hp, hpk⟩ := List.mem_map.1 hk
  have := h2 p hp
  rw [hpk] at this
  exact this

theorem goodKey_of_mem_keys {orig : EdgeMap} (h : EdgesOk orig)
    {k : EdgeKey} (hk : k ∈ keysOf orig) : GoodKey k := by
  obtain ⟨p, hp, hpk⟩ := List.mem_map.1 hk
  rw [← hpk]
  exact (h.1 p hp).1

theorem R0_decomp {orig : EdgeMap} (h : EdgesOk orig) :
    ∃ extra, addReverseEdges orig = orig ++ extra ∧ ∀ p ∈ extra,
      p.2.flow = 0 ∧ p.2.capacity = 0 ∧ ∃ k ∈ keysOf orig, p.1 = (k.2, k.1) :=
  (addReverseEdges_ok h).1.1

theorem R0_nodup {orig : EdgeMap} (h : EdgesOk orig) :
    (keysOf (addReverseEdges orig)).Nodup :=
  (addReverseEdges_ok h).1.2

theorem R0_entries {orig : EdgeMap} (h : EdgesOk orig) :
    ∀ p ∈ addReverseEdges orig, p.2.flow = 0 ∧ 0 ≤ p.2.capacity := by
  obtain ⟨extra, hdec, hex⟩ := R0_decomp h
  intro p hp
  rw [hdec] at hp
  rcases List.mem_append.1 hp with h2 | h2
  · exact ⟨(h.1 p h2).2.1, (h.1 p h2).2.2⟩
  · exact ⟨(hex p h2).1, le_of_eq (hex p h2).2.1.symm⟩

theorem R0_orig_sub {orig : EdgeMap} (h : EdgesOk orig) :
    ∀ k ∈ keysOf orig, k ∈ keysOf (addReverseEdges orig) := by
  obtain ⟨extra, hdec, _⟩ := R0_decomp h
  intro k hk
  rw [hdec, keysOf_append]
  exact List.mem_append_left _ hk

theorem R0_getEdge_orig {orig : EdgeMap} (h : EdgesOk orig) :
    ∀ k ∈ keysOf orig, getEdge (addReverseEdges orig) k = getEdge orig k := by
  obtain ⟨extra, hdec, _⟩ := R0_decomp h
  intro k hk
  rw [hdec]
  exact getEdge_append_left hk

theorem R0_rev_mem {orig : EdgeMap} (h : EdgesOk orig) :
    ∀ k ∈ keysOf orig, (k.2, k.1) ∈ keysOf (addReverseEdges orig) :=
  (addReverseEdges_ok h).2

theorem R0_keys_split {orig : EdgeMap} (h : EdgesOk orig) :
    ∀ k ∈ keysOf (addReverseEdges orig), k ∉ keysOf orig →
      ∃ k0 ∈ keysOf orig, k = (k0.2, k0.1) := by
  obtain ⟨extra, hdec, hex⟩ := R0_decomp h
  intro k hk hko
  rw [hdec, keysOf_append] at hk
  rcases List.mem_append.1 hk with h2 | h2
  · exact absurd h2 hko
  · obtain ⟨p, hp, hpk⟩ := List.mem_map.1 h2
    obtain ⟨k0, hk0, hpk0⟩ := (hex p hp).2.2
    exact ⟨k0, hk0, by rw [← hpk, hpk0]⟩

theorem R0_closed {orig : EdgeMap} (h : EdgesOk orig) :
    ∀ k ∈ keysOf (addReverseEdges orig),
      (k.2, k.1) ∈ keysOf (addReverseEdges orig) := by
  intro k hk
  by_cases hko : k ∈ keysOf orig
  · exact R0_rev_mem h k hko
  · obtain ⟨k0, hk0, hkk⟩ := R0_keys_split h k hk hko
    rw [hkk]
    exact R0_orig_sub h k0 hk0

theorem R0_src_orig {orig : EdgeMap} (h : EdgesOk orig) :
    ∀ k ∈ keysOf (addReverseEdges orig), k.1 = "s" → k ∈ keysOf orig := by
  intro k hk hs
  by_cases hko : k ∈ keysOf orig
  · exact hko
  · obtain ⟨k0, hk0, hkk⟩ := R0_keys_split h k hk hko
    have hg : GoodKey k0 := goodKey_of_mem_keys h hk0
    have : k0.2 = "s" := by
      rw [hkk] at hs
      exact hs
    exact absurd this (goodKey_snd_ne_s hg)

theorem R0_rev_cap0 {orig : EdgeMap} (h : EdgesOk orig) :
    ∀ k ∈ keysOf orig, capAt (addReverseEdges orig) (k.2, k.1) = 0 := by
  obtain ⟨extra, hdec, hex⟩ := R0_decomp h
  intro k hk
  have hg : GoodKey k := goodKey_of_mem_keys h hk
  have hno : (k.2, k.1) ∉ keysOf orig := by
    intro hc
    exact goodKey_not_rev hg (goodKey_of_mem_keys h hc)
  have hmem : (k.2, k.1) ∈ keysOf (addReverseEdges orig) := R0_rev_mem h k hk
  rw [hdec, keysOf_append] at hmem
  have hmex : (k.2, k.1) ∈ keysOf extra := by
    rcases List.mem_append.1 hmem with h2 | h2
    · exact absurd h2 hno
    · exact h2
  obtain ⟨e, he⟩ := getEdge_isSome_of_mem_keys hmex
  have hcap : e.capacity = 0 := (hex _ (lookup_mem he)).2.1
  unfold capAt
  rw [hdec, getEdge_append_right hno, he]
  simpa using hcap

theorem lookup_mem_pair {l : List (String × String)} {k v : String}
    (h : List.lookup k l = some v) : (k, v) ∈ l := by
  induction l with
  | nil => simp [List.lookup] at h
  | cons q rest ih =>
    rw [show (q :: rest) = ((q.1, q.2) :: rest) by rfl] at h ⊢
    by_cases hk : k = q.1
    · have hb : (k == q.1) = true := by simp [hk]
      simp only [List.lookup, hb] at h
      have hv : v = q.2 := by
        injection h with h2
        exact h2.symm
      rw [hk, hv]
      exact List.mem_cons_self _ _
    · have hb : (k == q.1) = false := by simp [hk]
      simp only [List.lookup, hb] at h
      exact List.mem_cons_of_mem _ (ih h)

theorem lookup_isSome_pair {l : List (String × String)} {k : String}
    (h : k ∈ l.map Prod.fst) : ∃ v, List.lookup k l = some v := by
  induction l with
  | nil => simp at h
  | cons q rest ih =>
    by_cases hk : k = q.1
    · refine ⟨q.2, ?_⟩
      rw [show (q :: rest) = ((q.1, q.2) :: rest) by rfl]
      have hb : (k == q.1) = true := by simp [hk]
      simp [List.lookup, hb]
    · have h2 : k ∈ rest.map Prod.fst := by
        simp only [List.map_cons, List.mem_cons] at h
        tauto
      obtain ⟨v, hv⟩ := ih h2
      refine ⟨v, ?_⟩
      rw [show (q :: rest) = ((q.1, q.2) :: rest) by rfl]
      have hb : (k == q.1) = false := by simp [hk]
      simpa [List.lookup, hb] using hv

theorem pathPairs_cons_cons (a b : String) (l : List String) :
    pathPairs (a :: b :: l) = (a, b) :: pathPairs (b :: l) := rfl

theorem pathPairs_concat : ∀ (l : List String) (a x : String),
    l.getLast? = some a → pathPairs (l ++ [x]) = pathPairs l ++ [(a, x)] := by
  intro l
  induction l with
  | nil => intro a x h; simp at h
  | cons b rest ih =>
    intro a x h
    cases rest with
    | nil =>
      have hab : b = a := by simpa using h
      subst hab
      simp [pathPairs]
    | cons c rest2 =>
      have h2 : (c :: rest2).getLast? = some a := by
        simpa [List.getLast?_cons_cons] using h
      show pathPairs (b :: ((c :: rest2) ++ [x])) = _
      rw [show (b :: ((c :: rest2) ++ [x])) = b :: c :: (rest2 ++ [x]) by simp,
        pathPairs_cons_cons]
      rw [show (c :: (rest2 ++ [x])) = (c :: rest2) ++ [x] by simp, ih a x h2]
      simp [pathPairs_cons_cons]

theorem BInv_init (edges : EdgeMap) (source : String) :
    BInv edges source ⟨[source], [source], []⟩ := by
  refine ⟨?_, ?_, ?_, ?_, ?_, ?_⟩ <;> simp

theorem BInv_scan {edges : EdgeMap} {source : String} (vertices : List String)
    {current : String} {rest visited : List String}
    {parent : List (String × String)}
    (h : BInv edges source ⟨current :: rest, visited, parent⟩) :
    BInv edges source (bfsScan edges current vertices ⟨rest, visited, parent⟩) := by
  obtain ⟨adds, heq, hnd, hprop⟩ :=
    bfsScan_shape edges current vertices ⟨rest, visited, parent⟩
  rw [heq]
  obtain ⟨hq, hvnd, hlen, hknd, hpar, hcov⟩ := h
  simp only [] at hq hvnd hlen hknd hpar hcov
  have hcur : current ∈ visited := hq current (by simp)
  have hdisj : visited.Disjoint adds := fun a ha hb => (hprop a hb).1 ha
  have hkeys : (parent ++ adds.map (fun a => (a, current))).map Prod.fst =
      parent.map Prod.fst ++ adds := by
    rw [List.map_append, List.map_map]
    have hcomp : (Prod.fst ∘ fun a : String => (a, current)) = (id : String → String) := by
      funext a
      rfl
    rw [hcomp, List.map_id]
  refine ⟨?_, ?_, ?_, ?_, ?_, ?_⟩
  · intro v hv
    simp only [] at hv ⊢
    rcases List.mem_append.1 hv with h2 | h2
    · exact List.mem_append_left _ (hq v (List.mem_cons_of_mem _ h2))
    · exact List.mem_append_right _ h2
  · exact List.nodup_append.2 ⟨hvnd, hnd, hdisj⟩
  · simp only [List.length_append, List.length_map]
    omega
  · rw [hkeys]
    refine List.nodup_append.2 ⟨hknd, hnd, ?_⟩
    intro k hk hk2
    obtain ⟨vp, hvp, hvpk⟩ := List.mem_map.1 hk
    exact (hprop k hk2).1 (hvpk ▸ (hpar vp hvp).2.1)
  · intro vp hvp
    simp only [] at hvp
    rcases List.mem_append.1 hvp with h2 | h2
    · obtain ⟨ho, hm1, hm2, hidx⟩ := hpar vp h2
      refine ⟨ho, List.mem_append_left _ hm1, List.mem_append_left _ hm2, ?_⟩
      rw [List.indexOf_append_of_mem hm1, List.indexOf_append_of_mem hm2]
      exact hidx
    · obtain ⟨a, ha, hak⟩ := List.mem_map.1 h2
      obtain ⟨hfresh, _, hopen⟩ := hprop a ha
      rw [← hak]
      refine ⟨hopen, List.mem_append_right _ ha, List.mem_append_left _ hcur, ?_⟩
      rw [List.indexOf_append_of_mem hcur, List.indexOf_append_of_not_mem hfresh]
      calc List.indexOf current visited < visited.length :=
             List.indexOf_lt_length.2 hcur
        _ ≤ visited.length + List.indexOf a adds := Nat.le_add_right _ _
  · intro v hv hvs
    rw [hkeys]
    rcases List.mem_append.1 hv with h2 | h2
    · exact List.mem_append_left _ (hcov v h2 hvs)
    · exact List.mem_append_right _ h2

theorem reconstructPath_spec {edges : EdgeMap} {source : String}
    {visited : List String} {parent : List (String × String)}
    (hvnd : visited.Nodup)
    (hpar : ∀ vp ∈ parent, edgeOpen edges (vp.2, vp.1) = true ∧
      vp.1 ∈ visited ∧ vp.2 ∈ visited ∧
      visited.indexOf vp.2 < visited.indexOf vp.1)
    (hcov : ∀ v ∈ visited, v ≠ source → v ∈ parent.map Prod.fst) :
    ∀ (fuel : ℕ) (node : String), node ∈ visited →
    visited.indexOf node < fuel →
    ∃ path, reconstructPath parent source node fuel = some path ∧
      (∃ r2, path = source :: r2) ∧ path.getLast? = some node ∧
      path.Nodup ∧ (∀ q ∈ pathPairs path, edgeOpen edges q = true) ∧
      (∀ x ∈ path, x ∈ visited ∧
        visited.indexOf x ≤ visited.indexOf node) := by
  intro fuel
  induction fuel with
  | zero => intro node _ h; omega
  | succ fuel ih =>
    intro node hmem hidx
    by_cases hns : node = source
    · subst hns
      refine ⟨[node], by simp [reconstructPath], ⟨[], rfl⟩, rfl, by simp, ?_, ?_⟩
      · intro q hq
        simp [pathPairs] at hq
      · intro x hx
        have hxs : x = node := by simpa using hx
        subst hxs
        exact ⟨hmem, le_refl _⟩
    · have hkey : node ∈ parent.map Prod.fst := hcov node hmem hns
      obtain ⟨p, hlk⟩ := lookup_isSome_pair hkey
      obtain ⟨hopen, _, hpv, hplt⟩ := hpar (node, p) (lookup_mem_pair hlk)
      simp only [] at hopen hpv hplt
      have hpfuel : visited.indexOf p < fuel := by omega
      obtain ⟨path0, heq0, ⟨r2, hsrc⟩, hlast, hnodup, hpairs, hmemb⟩ :=
        ih p hpv hpfuel
      refine ⟨path0 ++ [node], ?_, ⟨r2 ++ [node], by rw [hsrc]; simp⟩,
        List.getLast?_concat _, ?_, ?_, ?_⟩
      · simp only [reconstructPath, hns, if_false, hlk, heq0]
        rfl
      · refine List.nodup_append.2 ⟨hnodup, by simp, ?_⟩
        refine List.disjoint_singleton.2 ?_
        intro hc
        have := (hmemb node hc).2
        omega
      · intro q hq
        rw [pathPairs_concat path0 p node hlast] at hq
        rcases List.mem_append.1 hq with h2 | h2
        · exact hpairs q h2
        · have hqe : q = (p, node) := by simpa using h2
          rw [hqe]
          exact hopen
      · intro x hx
        rcases List.mem_append.1 hx with h2 | h2
        · obtain ⟨hm, hle⟩ := hmemb x h2
          exact ⟨hm, by omega⟩
        · have hxn : x = node := by simpa using h2
          subst hxn
          exact ⟨hmem, le_refl _⟩

theorem bfsLoop_spec (vertices : List String) (edges : EdgeMap)
    (source sink : String) :
    ∀ (st : BfsState), BInv edges source st →
    ∀ path, bfsLoop vertices edges source sink st = some path →
      (∃ r2, path = source :: r2) ∧ path.getLast? = some sink ∧
      path.Nodup ∧ ∀ q ∈ pathPairs path, edgeOpen edges q = true := by
  intro st
  induction st using bfsLoop.induct vertices edges source sink with
  | case1 visited parent =>
    intro _ path hpath
    simp [bfsLoop] at hpath
  | case2 a b c =>
    intro hinv path hpath
    simp only [bfsLoop, if_pos rfl] at hpath
    obtain ⟨hq, hvnd, hlen, hknd, hpar, hcov⟩ := hinv
    simp only [] at hq hvnd hlen hknd hpar hcov
    have hsmem : sink ∈ b := hq sink (by simp)
    have hfuel : List.indexOf sink b < c.length + 1 := by
      have := List.indexOf_lt_length.2 hsmem
      omega
    obtain ⟨path0, heq0, hp1, hp2, hp3, hp4, _⟩ :=
      reconstructPath_spec hvnd hpar hcov (c.length + 1) sink hsmem hfuel
    rw [heq0] at hpath
    have hpp : path = path0 := by
      injection hpath with h2
      exact h2.symm
    rw [hpp]
    exact ⟨hp1, hp2, hp3, hp4⟩
  | case3 a b c d e ih =>
    intro hinv path hpath
    simp only [bfsLoop, if_neg e] at hpath
    exact ih (BInv_scan vertices hinv) path hpath

/-- Any path returned by `bfs` starts at the source, ends at the sink, has
no repeated vertex, and every consecutive pair is a residual-admissible
edge. -/
theorem bfs_spec {vertices : List String} {edges : EdgeMap}
    {source sink : String} {path : List String}
    (h : bfs vertices edges source sink = some path) :
    (∃ r2, path = source :: r2) ∧ path.getLast? = some sink ∧
    path.Nodup ∧ ∀ q ∈ pathPairs path, edgeOpen edges q = true :=
  bfsLoop_spec vertices edges source sink ⟨[source], [source], []⟩
    (BInv_init edges source) path h

theorem mem_pathPairs {l : List String} {p : String × String}
    (h : p ∈ pathPairs l) : p.1 ∈ l ∧ p.2 ∈ l.tail := by
  obtain ⟨x, y⟩ := p
  exact List.of_mem_zip h

theorem pathPairs_count_le_one :
    ∀ (l : List String), l.Nodup → ∀ (k : String × String),
    (pathPairs l).count k ≤ 1 := by
  intro l
  induction l with
  | nil => intro _ k; simp [pathPairs]
  | cons x rest ih =>
    intro hnd k
    cases rest with
    | nil => simp [pathPairs]
    | cons y rest2 =>
      have hx : x ∉ y :: rest2 := (List.nodup_cons.1 hnd).1
      have hnd2 : (y :: rest2).Nodup := (List.nodup_cons.1 hnd).2
      rw [pathPairs_cons_cons, List.count_cons]
      by_cases hk : (x, y) = k
      · have hz : (pathPairs (y :: rest2)).count k = 0 := by
          refine List.count_eq_zero.2 ?_
          intro hc
          have := (mem_pathPairs hc).1
          rw [← hk] at this
          exact hx this
        simp [hz, hk]
      · have : ((x, y) == k) = false := by simp [hk]
        rw [this]
        simpa using ih hnd2 k

theorem pathPairs_not_both :
    ∀ (l : List String), l.Nodup → ∀ (a b : String),
    (a, b) ∈ pathPairs l → (b, a) ∈ pathPairs l → False := by
  intro l
  induction l with
  | nil => intro _ a b hk _; simp [pathPairs] at hk
  | cons x rest ih =>
    intro hnd a b hk hks
    cases rest with
    | nil => simp [pathPairs] at hk
    | cons y rest2 =>
      have hx : x ∉ y :: rest2 := (List.nodup_cons.1 hnd).1
      have hnd2 : (y :: rest2).Nodup := (List.nodup_cons.1 hnd).2
      rw [pathPairs_cons_cons] at hk hks
      rcases List.mem_cons.1 hk with hk1 | hk1
      · have ha : a = x := by simpa using congrArg Prod.fst hk1
        have hb : b = y := by simpa using congrArg Prod.snd hk1
        rcases List.mem_cons.1 hks with hk2 | hk2
        · have hyx : b = x := by simpa using congrArg Prod.fst hk2
          have : x ∈ y :: rest2 := by
            rw [← hyx, hb]
            exact List.mem_cons_self _ _
          exact hx this
        · have h2 : a ∈ rest2 := (mem_pathPairs hk2).2
          rw [ha] at h2
          exact hx (List.mem_cons_of_mem _ h2)
      · rcases List.mem_cons.1 hks with hk2 | hk2
        · have hb : b = x := by simpa using congrArg Prod.fst hk2
          have h2 : b ∈ rest2 := (mem_pathPairs hk1).2
          rw [hb] at h2
          exact hx (List.mem_cons_of_mem _ h2)
        · exact ih hnd2 a b hk1 hk2

theorem getEdge_addFlowAt (es : EdgeMap) (k0 : EdgeKey) (d : ℚ) (k : EdgeKey) :
    getEdge (addFlowAt es k0 d) k =
      if k = k0 then
        (getEdge es k).map (fun e => { e with flow := e.flow + d })
      else getEdge es k := by
  induction es with
  | nil =>
    by_cases hk : k = k0 <;> simp [addFlowAt, getEdge, List.lookup, hk]
  | cons q rest ih =>
    rw [show (q :: rest) = ((q.1, q.2) :: rest) by rfl]
    by_cases hq : q.1 = k0 <;> by_cases hk : k = q.1
    · have hb : (k == q.1) = true := by simp [hk]
      rw [show addFlowAt ((q.1, q.2) :: rest) k0 d =
          (q.1, { q.2 with flow := q.2.flow + d }) :: addFlowAt rest k0 d by
        simp [addFlowAt, hq]]
      simp only [getEdge, List.lookup, hb]
      rw [if_pos (hk.trans hq)]
      rfl
    · rw [show addFlowAt ((q.1, q.2) :: rest) k0 d =
          (q.1, { q.2 with flow := q.2.flow + d }) :: addFlowAt rest k0 d by
        simp [addFlowAt, hq]]
      have hb : (k == q.1) = false := by simp [hk]
      simp only [getEdge, List.lookup, hb]
      exact ih
    · rw [show addFlowAt ((q.1, q.2) :: rest) k0 d =
          (q.1, q.2) :: addFlowAt rest k0 d by simp [addFlowAt, hq]]
      have hb : (k == q.1) = true := by simp [hk]
      have hkk0 : ¬ k = k0 := by
        rw [hk]
        exact hq
      simp only [getEdge, List.lookup, hb]
      rw [if_neg hkk0]
    · rw [show addFlowAt ((q.1, q.2) :: rest) k0 d =
          (q.1, q.2) :: addFlowAt rest k0 d by simp [addFlowAt, hq]]
      have hb : (k == q.1) = false := by simp [hk]
      simp only [getEdge, List.lookup, hb]
      exact ih

theorem keysOf_addFlowAt (es : EdgeMap) (k0 : EdgeKey) (d : ℚ) :
    keysOf (addFlowAt es k0 d) = keysOf es := by
  unfold keysOf addFlowAt
  rw [List.map_map]
  refine List.map_congr_left ?_
  intro p _
  by_cases hp : p.1 = k0 <;> simp [hp]

theorem capAt_addFlowAt (es : EdgeMap) (k0 : EdgeKey) (d : ℚ) (k : EdgeKey) :
    capAt (addFlowAt es k0 d) k = capAt es k := by
  unfold capAt
  rw [getEdge_addFlowAt]
  by_cases hk : k = k0
  · rw [if_pos hk]
    cases getEdge es k <;> rfl
  · rw [if_neg hk]

theorem flowAt_addFlowAt (es : EdgeMap) (k0 : EdgeKey) (d : ℚ) (k : EdgeKey) :
    flowAt (addFlowAt es k0 d) k =
      flowAt es k + (if k = k0 ∧ k ∈ keysOf es then d else 0) := by
  unfold flowAt
  rw [getEdge_addFlowAt]
  by_cases hk : k = k0
  · rw [if_pos hk]
    cases hg : getEdge es k with
    | none =>
      have : k ∉ keysOf es := not_mem_keys_of_getEdge_none hg
      simp [this]
    | some e =>
      have h2 : k ∈ keysOf es := mem_keys_of_getEdge_some hg
      rw [if_pos ⟨hk, h2⟩]
      rfl
  · rw [if_neg hk]
    simp [hk]

theorem ekMinCap_nonneg {resid : EdgeMap} {path : List String}
    (h : ∀ p ∈ pathPairs path, edgeOpen resid p = true) :
    0 ≤ ekMinCap resid path := by
  unfold ekMinCap
  have hpos : ∀ x ∈ (pathPairs path).map (fun p =>
      ((getEdge resid p).getD (Edge.base 0 0)).capacity -
        ((getEdge resid p).getD (Edge.base 0 0)).flow), 0 ≤ x := by
    intro x hx
    obtain ⟨p, hp, hpx⟩ := List.mem_map.1 hx
    have hopen := h p hp
    unfold edgeOpen at hopen
    cases hg : getEdge resid p with
    | none => rw [hg] at hopen; simp at hopen
    | some e =>
      rw [hg] at hopen
      simp at hopen
      rw [← hpx, hg]
      simp
      linarith
  refine le_foldl_min _ _ _ ?_ hpos
  cases hc : (pathPairs path).map (fun p =>
      ((getEdge resid p).getD (Edge.base 0 0)).capacity -
        ((getEdge resid p).getD (Edge.base 0 0)).flow) with
  | nil => simp
  | cons a rest =>
    simp only [List.headD_cons]
    exact hpos a (by rw [hc]; simp)

theorem ekMinCap_le {resid : EdgeMap} {path : List String}
    {p : String × String} (hp : p ∈ pathPairs path) :
    ekMinCap resid path ≤ capAt resid p - flowAt resid p := by
  unfold ekMinCap
  refine foldl_min_le_mem _ _ _ ?_
  exact List.mem_map.2 ⟨p, hp, rfl⟩

theorem keysOf_ekAugFold (mc : ℚ) :
    ∀ (ps : List (String × String)) (es : EdgeMap),
    keysOf (ps.foldl (fun es2 p =>
      addFlowAt (addFlowAt es2 p mc) (p.2, p.1) (-mc)) es) = keysOf es := by
  intro ps
  induction ps with
  | nil => intro es; rfl
  | cons p rest ih =>
    intro es
    simp only [List.foldl_cons]
    rw [ih, keysOf_addFlowAt, keysOf_addFlowAt]

theorem capAt_ekAugFold (mc : ℚ) :
    ∀ (ps : List (String × String)) (es : EdgeMap) (k : EdgeKey),
    capAt (ps.foldl (fun es2 p =>
      addFlowAt (addFlowAt es2 p mc) (p.2, p.1) (-mc)) es) k = capAt es k := by
  intro ps
  induction ps with
  | nil => intro es k; rfl
  | cons p rest ih =>
    intro es k
    simp only [List.foldl_cons]
    rw [ih, capAt_addFlowAt, capAt_addFlowAt]

theorem flowAt_ekAugFold (mc : ℚ) :
    ∀ (ps : List (String × String)) (es : EdgeMap) (k : EdgeKey),
    (∀ p ∈ ps, p ∈ keysOf es ∧ (p.2, p.1) ∈ keysOf es) →
    flowAt (ps.foldl (fun es2 p =>
        addFlowAt (addFlowAt es2 p mc) (p.2, p.1) (-mc)) es) k =
      flowAt es k + mc * ((ps.count k : ℕ) : ℚ) -
        mc * ((ps.count (k.2, k.1) : ℕ) : ℚ) := by
  intro ps
  induction ps with
  | nil => intro es k _; simp
  | cons p rest ih =>
    intro es k hps
    simp only [List.foldl_cons]
    have hmem := hps p (by simp)
    have hkeys1 : keysOf (addFlowAt es p mc) = keysOf es := keysOf_addFlowAt _ _ _
    have hkeys2 : keysOf (addFlowAt (addFlowAt es p mc) (p.2, p.1) (-mc)) =
        keysOf es := by rw [keysOf_addFlowAt, hkeys1]
    rw [ih _ k (fun q hq => by
      rw [hkeys2]
      exact hps q (List.mem_cons_of_mem _ hq))]
    rw [flowAt_addFlowAt, flowAt_addFlowAt, hkeys1]
    rw [List.count_cons, List.count_cons]
    simp only [beq_iff_eq]
    have e1 : (p = k) = (k = p) := propext ⟨Eq.symm, Eq.symm⟩
    have e2 : (p = (k.2, k.1)) = (k = (p.2, p.1)) := by
      refine propext ⟨?_, ?_⟩
      · intro h
        obtain ⟨a, b⟩ := k
        obtain ⟨c, d2⟩ := p
        simp at h ⊢
        exact ⟨h.2.symm, h.1.symm⟩
      · intro h
        obtain ⟨a, b⟩ := k
        obtain ⟨c, d2⟩ := p
        simp at h ⊢
        exact ⟨h.2.symm, h.1.symm⟩
    simp only [e1, e2]
    by_cases h1 : k = p <;> by_cases h2 : k = (p.2, p.1)
    · have hm1 : k ∈ keysOf es := by rw [h1]; exact hmem.1
      rw [if_pos ⟨h1, hm1⟩, if_pos ⟨h2, hm1⟩, if_pos h1, if_pos h2]
      push_cast
      ring
    · have hm1 : k ∈ keysOf es := by rw [h1]; exact hmem.1
      rw [if_pos ⟨h1, hm1⟩, if_neg (fun hc => h2 hc.1), if_pos h1, if_neg h2]
      push_cast
      ring
    · have hm2 : k ∈ keysOf es := by rw [h2]; exact hmem.2
      rw [if_neg (fun hc => h1 hc.1), if_pos ⟨h2, hm2⟩, if_neg h1, if_pos h2]
      push_cast
      ring
    · rw [if_neg (fun hc => h1 hc.1), if_neg (fun hc => h2 hc.1), if_neg h1,
        if_neg h2]
      push_cast
      ring

theorem flowAt_ekAugment {resid : EdgeMap} {path : List String} (mc : ℚ)
    (k : EdgeKey)
    (hps : ∀ p ∈ pathPairs path, p ∈ keysOf resid ∧ (p.2, p.1) ∈ keysOf resid) :
    flowAt (ekAugment resid path mc) k =
      flowAt resid k + mc * (((pathPairs path).count k : ℕ) : ℚ) -
        mc * (((pathPairs path).count (k.2, k.1) : ℕ) : ℚ) := by
  unfold ekAugment
  exact flowAt_ekAugFold mc (pathPairs path) resid k hps

theorem keysOf_ekAugment (resid : EdgeMap) (path : List String) (mc : ℚ) :
    keysOf (ekAugment resid path mc) = keysOf resid :=
  keysOf_ekAugFold mc (pathPairs path) resid

theorem capAt_ekAugment (resid : EdgeMap) (path : List String) (mc : ℚ)
    (k : EdgeKey) : capAt (ekAugment resid path mc) k = capAt resid k :=
  capAt_ekAugFold mc (pathPairs path) resid k

theorem flowAt_all_zero {es : EdgeMap} (h : ∀ p ∈ es, p.2.flow = 0)
    (k : EdgeKey) : flowAt es k = 0 := by
  unfold flowAt
  cases hg : getEdge es k with
  | none => rfl
  | some e => simpa using h _ (lookup_mem hg)

theorem EkInv_init {orig : EdgeMap} (h : EdgesOk orig) :
    EkInv orig (addReverseEdges orig) := by
  have hz : ∀ p ∈ addReverseEdges orig, p.2.flow = 0 :=
    fun p hp => (R0_entries h p hp).1
  refine ⟨rfl, fun k => rfl, ?_, ?_⟩
  · intro k _
    rw [flowAt_all_zero hz, flowAt_all_zero hz]
    norm_num
  · intro k hk
    rw [flowAt_all_zero hz]
    obtain ⟨e, he⟩ := getEdge_isSome_of_mem_keys hk
    have hcap := (R0_entries h _ (lookup_mem he)).2
    unfold capAt
    rw [he]
    simpa using hcap

theorem srcFlowSum_init {orig : EdgeMap} (h : EdgesOk orig) :
    srcFlowSum orig (addReverseEdges orig) = 0 :=
  list_sum_map_zero _ _ (fun k _ =>
    flowAt_all_zero (fun p hp => (R0_entries h p hp).1) k)

theorem EkInv_step {orig resid : EdgeMap} (h : EdgesOk orig)
    (hinv : EkInv orig resid) {vertices : List String} {sink : String}
    {path : List String}
    (hbfs : bfs vertices resid "s" sink = some path) :
    EkInv orig (ekAugment resid path (ekMinCap resid path)) ∧
    srcFlowSum orig (ekAugment resid path (ekMinCap resid path)) =
      srcFlowSum orig resid + ekMinCap resid path := by
  obtain ⟨⟨r2, hsrc⟩, hlast, hnodup, hopen⟩ := bfs_spec hbfs
  have hpairs : ∀ p ∈ pathPairs path,
      p ∈ keysOf resid ∧ (p.2, p.1) ∈ keysOf resid := by
    intro p hp
    have ho := hopen p hp
    unfold edgeOpen at ho
    cases hg : getEdge resid p with
    | none => rw [hg] at ho; simp at ho
    | some e =>
      have hm : p ∈ keysOf resid := mem_keys_of_getEdge_some hg
      refine ⟨hm, ?_⟩
      rw [hinv.1] at hm ⊢
      exact R0_closed h p hm
  have hmc0 : 0 ≤ ekMinCap resid path := ekMinCap_nonneg hopen
  refine ⟨⟨?_, ?_, ?_, ?_⟩, ?_⟩
  · rw [keysOf_ekAugment, hinv.1]
  · intro k
    rw [capAt_ekAugment]
    exact hinv.2.1 k
  · intro k hk
    obtain ⟨a, b⟩ := k
    have hf1 : flowAt (ekAugment resid path (ekMinCap resid path)) (a, b) =
        flowAt resid (a, b) +
          ekMinCap resid path * (((pathPairs path).count (a, b) : ℕ) : ℚ) -
          ekMinCap resid path * (((pathPairs path).count (b, a) : ℕ) : ℚ) :=
      flowAt_ekAugment _ _ hpairs
    have hf2 : flowAt (ekAugment resid path (ekMinCap resid path)) (b, a) =
        flowAt resid (b, a) +
          ekMinCap resid path * (((pathPairs path).count (b, a) : ℕ) : ℚ) -
          ekMinCap resid path * (((pathPairs path).count (a, b) : ℕ) : ℚ) :=
      flowAt_ekAugment _ _ hpairs
    have hsk := hinv.2.2.1 (a, b) hk
    simp only [] at hsk ⊢
    rw [hf1, hf2]
    linarith
  · intro k hk
    obtain ⟨a, b⟩ := k
    have hf1 : flowAt (ekAugment resid path (ekMinCap resid path)) (a, b) =
        flowAt resid (a, b) +
          ekMinCap resid path * (((pathPairs path).count (a, b) : ℕ) : ℚ) -
          ekMinCap resid path * (((pathPairs path).count (b, a) : ℕ) : ℚ) :=
      flowAt_ekAugment _ _ hpairs
    rw [hf1]
    have hle := hinv.2.2.2 (a, b) hk
    by_cases hc1 : (a, b) ∈ pathPairs path
    · have h1 : (pathPairs path).count (a, b) = 1 := by
        have hle1 := pathPairs_count_le_one path hnodup (a, b)
        have hne : (pathPairs path).count (a, b) ≠ 0 := by
          rw [Ne, List.count_eq_zero]
          intro hc
          exact hc hc1
        omega
      have h0 : (pathPairs path).count (b, a) = 0 := by
        rw [List.count_eq_zero]
        intro hc
        exact pathPairs_not_both path hnodup a b hc1 hc
      have hmle := @ekMinCap_le resid path (a, b) hc1
      have hcap := hinv.2.1 (a, b)
      rw [h1, h0]
      simp only [Nat.cast_one, Nat.cast_zero]
      linarith
    · have h1 : (pathPairs path).count (a, b) = 0 := by
        rw [List.count_eq_zero]
        intro hc
        exact hc1 hc
      have hnn : (0 : ℚ) ≤ (((pathPairs path).count (b, a) : ℕ) : ℚ) := by
        positivity
      rw [h1]
      simp only [Nat.cast_zero]
      nlinarith
  · cases r2 with
    | nil =>
      rw [hsrc]
      have hpp0 : pathPairs ["s"] = [] := rfl
      have hmc : ekMinCap resid ["s"] = 0 := by
        unfold ekMinCap
        rw [hpp0]
        rfl
      have haug : ekAugment resid ["s"] (ekMinCap resid ["s"]) = resid := by
        unfold ekAugment
        rw [hpp0]
        rfl
      rw [haug, hmc, add_zero]
    | cons y r2b =>
      rw [hsrc] at hnodup hopen hpairs ⊢
      have hsny : "s" ∉ y :: r2b := (List.nodup_cons.1 hnodup).1
      have hpp : pathPairs ("s" :: y :: r2b) =
          ("s", y) :: pathPairs (y :: r2b) := pathPairs_cons_cons _ _ _
      have hcount1 : ∀ k ∈ srcKeys orig,
          (pathPairs ("s" :: y :: r2b)).count k =
            if k = ("s", y) then 1 else 0 := by
        intro k hk
        have hks : k.1 = "s" := by
          have := (List.mem_filter.1 hk).2
          simpa using this
        have htail : (pathPairs (y :: r2b)).count k = 0 := by
          rw [List.count_eq_zero]
          intro hc
          have := (mem_pathPairs hc).1
          rw [← hks] at hsny
          exact hsny this
        rw [hpp, List.count_cons, htail]
        simp only [beq_iff_eq, Nat.zero_add]
        by_cases hke : k = ("s", y)
        · rw [if_pos hke.symm, if_pos hke]
        · rw [if_neg (fun hc => hke hc.symm), if_neg hke]
      have hcount2 : ∀ k ∈ srcKeys orig,
          (pathPairs ("s" :: y :: r2b)).count (k.2, k.1) = 0 := by
        intro k hk
        have hks : k.1 = "s" := by
          have := (List.mem_filter.1 hk).2
          simpa using this
        rw [List.count_eq_zero]
        intro hc
        rw [hpp] at hc
        rcases List.mem_cons.1 hc with hc2 | hc2
        · have hy : k.1 = y := by simpa using congrArg Prod.snd hc2
          rw [hks] at hy
          exact hsny (hy ▸ List.mem_cons_self _ _)
        · have h2 : k.1 ∈ r2b := by
            have := (mem_pathPairs hc2).2
            simpa using this
          rw [hks] at h2
          exact hsny (List.mem_cons_of_mem _ h2)
      have hmemsy : ("s", y) ∈ srcKeys orig := by
        have hmpp : ("s", y) ∈ pathPairs ("s" :: y :: r2b) := by
          rw [hpp]
          exact List.mem_cons_self _ _
        have hk : ("s", y) ∈ keysOf resid := (hpairs _ hmpp).1
        rw [hinv.1] at hk
        have := R0_src_orig h _ hk rfl
        exact List.mem_filter.2 ⟨this, by simp⟩
      have hnd : (srcKeys orig).Nodup := h.2.filter _
      have hmap : (srcKeys orig).map
          (fun k => flowAt (ekAugment resid ("s" :: y :: r2b)
            (ekMinCap resid ("s" :: y :: r2b))) k) =
          (srcKeys orig).map (fun k => flowAt resid k +
            (if k = ("s", y) then ekMinCap resid ("s" :: y :: r2b) else 0)) := by
        refine List.map_congr_left ?_
        intro k hk
        rw [flowAt_ekAugment _ _ hpairs, hcount1 k hk, hcount2 k hk]
        by_cases hke : k = ("s", y)
        · rw [if_pos hke, if_pos hke]
          push_cast
          ring
        · rw [if_neg hke, if_neg hke]
          push_cast
          ring
      unfold srcFlowSum
      have hsingle := list_sum_map_single (srcKeys orig)
        (fun k => if k = ("s", y) then ekMinCap resid ("s" :: y :: r2b) else 0)
        ("s", y) hmemsy hnd (fun k _ hner => if_neg hner)
      have hsum2 : (List.map (fun k => if k = ("s", y) then
          ekMinCap resid ("s" :: y :: r2b) else 0) (srcKeys orig)).sum =
          ekMinCap resid ("s" :: y :: r2b) := by
        rw [hsingle]
        simp
      rw [hmap, list_sum_map_add, hsum2]

theorem ekLoop_spec {orig : EdgeMap} (h : EdgesOk orig)
    (vertices : List String) (sink : String) :
    ∀ (fuel : ℕ) (flow : ℚ) (paths : List (List String)) (resid : EdgeMap),
    EkInv orig resid → flow = srcFlowSum orig resid →
    EkInv orig (ekLoop vertices "s" sink fuel flow paths resid).2.2 ∧
    (ekLoop vertices "s" sink fuel flow paths resid).1 =
      srcFlowSum orig (ekLoop vertices "s" sink fuel flow paths resid).2.2 := by
  intro fuel
  induction fuel with
  | zero =>
    intro flow paths resid hinv hflow
    exact ⟨hinv, hflow⟩
  | succ fuel ih =>
    intro flow paths resid hinv hflow
    cases hb : bfs vertices resid "s" sink with
    | none =>
      simp only [ekLoop, hb]
      exact ⟨hinv, hflow⟩
    | some path =>
      simp only [ekLoop, hb]
      obtain ⟨hinv2, hsum2⟩ := EkInv_step h hinv hb
      exact ih (flow + ekMinCap resid path) (paths ++ [path])
        (ekAugment resid path (ekMinCap resid path)) hinv2
        (by rw [hflow, ← hsum2])

theorem keys_filter_src (es : EdgeMap) :
    srcKeys es = (es.filter (fun p => decide (p.1.1 = "s"))).map Prod.fst := by
  unfold srcKeys keysOf
  induction es with
  | nil => rfl
  | cons q rest ih =>
    simp only [List.map_cons, List.filter_cons]
    by_cases hq : q.1.1 = "s" <;> simp [hq, ih]

theorem srcCapSum_eq {orig : EdgeMap} (h : EdgesOk orig) :
    ((srcKeys orig).map (fun k => capAt orig k)).sum =
      sourceCapacitySum orig := by
  unfold sourceCapacitySum
  rw [keys_filter_src, List.map_map]
  refine congrArg List.sum (List.map_congr_left ?_)
  intro p hp
  have hpm : p ∈ orig := List.mem_filter.1 hp |>.1
  have hlk : getEdge orig p.1 = some p.2 := lookup_of_mem_nodup h.2 hpm
  show capAt orig p.1 = p.2.capacity
  unfold capAt
  rw [hlk]
  rfl

theorem edmondsKarp_flow_eq {orig : EdgeMap} (h : EdgesOk orig)
    (vertices : List String) (sink : String) :
    (ekLoop vertices "s" sink 100 0 [] (addReverseEdges orig)).1 =
      srcFlowSum orig
        (ekLoop vertices "s" sink 100 0 [] (addReverseEdges orig)).2.2 ∧
    EkInv orig (ekLoop vertices "s" sink 100 0 [] (addReverseEdges orig)).2.2 := by
  obtain ⟨h1, h2⟩ := ekLoop_spec h vertices sink 100 0 [] (addReverseEdges orig)
    (EkInv_init h) (srcFlowSum_init h).symm
  exact ⟨h2, h1⟩

/-- With duplicate-free well-shaped keys and nonnegative capacities, the
flow total returned by `edmondsKarp` is bounded by the sum of the
source-outgoing capacities. -/
theorem edmondsKarp_flow_le_srcCaps {orig : EdgeMap} (h : EdgesOk orig)
    (vertices : List String) (sink : String) :
    (ekLoop vertices "s" sink 100 0 [] (addReverseEdges orig)).1 ≤
      sourceCapacitySum orig := by
  obtain ⟨hflow, hinv⟩ := edmondsKarp_flow_eq h vertices sink
  rw [hflow, ← srcCapSum_eq h]
  unfold srcFlowSum
  refine List.sum_le_sum ?_
  intro k hk
  have hko : k ∈ keysOf orig := (List.mem_filter.1 hk).1
  have hkr : k ∈ keysOf (addReverseEdges orig) := R0_orig_sub h k hko
  have hle := hinv.2.2.2 k hkr
  have hcap : capAt (addReverseEdges orig) k = capAt orig k := by
    unfold capAt
    rw [R0_getEdge_orig h k hko]
  rw [hcap] at hle
  exact hle

/-- With duplicate-free well-shaped keys and nonnegative capacities, every
edge written back by `edmondsKarp` satisfies `0 ≤ flow ≤ capacity`. -/
theorem edmondsKarp_flow_bounds {orig : EdgeMap} (h : EdgesOk orig)
    (vertices : List String) (sink : String) :
    ∀ p ∈ orig.map (fun p => (p.1,
      { p.2 with flow := ((getEdge
          (ekLoop vertices "s" sink 100 0 [] (addReverseEdges orig)).2.2
          p.1).getD (Edge.base 0 0)).flow })),
      0 ≤ p.2.flow ∧ p.2.flow ≤ p.2.capacity := by
  obtain ⟨_, hinv⟩ := edmondsKarp_flow_eq h vertices sink
  intro p2 hp2
  obtain ⟨p, hp, hpe⟩ := List.mem_map.1 hp2
  rw [← hpe]
  simp only []
  have hko : p.1 ∈ keysOf orig := List.mem_map.2 ⟨p, hp, rfl⟩
  have hkr : p.1 ∈ keysOf (addReverseEdges orig) := R0_orig_sub h p.1 hko
  have hflow : ((getEdge
      (ekLoop vertices "s" sink 100 0 [] (addReverseEdges orig)).2.2
      p.1).getD (Edge.base 0 0)).flow =
      flowAt (ekLoop vertices "s" sink 100 0 [] (addReverseEdges orig)).2.2
        p.1 := rfl
  have hcap : capAt (addReverseEdges orig) p.1 = p.2.capacity := by
    unfold capAt
    rw [R0_getEdge_orig h p.1 hko, lookup_of_mem_nodup h.2 hp]
    rfl
  constructor
  · have hsk := hinv.2.2.1 p.1 hkr
    have hrevk : (p.1.2, p.1.1) ∈ keysOf (addReverseEdges orig) :=
      R0_rev_mem h p.1 hko
    have hrle := hinv.2.2.2 (p.1.2, p.1.1) hrevk
    have hrcap := R0_rev_cap0 h p.1 hko
    rw [hrcap] at hrle
    rw [hflow]
    linarith
  · have hle := hinv.2.2.2 p.1 hkr
    rw [hcap] at hle
    rw [hflow]
    exact hle

/-- C5: for every flow network produced by `buildFlowNetwork` from
inventory ingredients with nonnegative quantities, the total flow returned
by `edmondsKarp network "s" "t"` is at most the sum of the capacities of
the edges leaving the source vertex `"s"`. -/
theorem C5_flow_le_source_caps (M : JsMath) (wi : List WeightedIngredient)
    (recipes : List Recipe) (pmt : String)
    (hq : ∀ ing ∈ wi, 0 ≤ ingQuantity ing) :
    ((edmondsKarp (buildFlowNetwork M wi recipes pmt) "s" "t").1).flow ≤
      sourceCapacitySum (buildFlowNetwork M wi recipes pmt).edges := by
  have h := buildFlowNetwork_edgesOk M wi recipes pmt hq
  exact edmondsKarp_flow_le_srcCaps h
    (buildFlowNetwork M wi recipes pmt).vertices "t"

theorem C5_flow_le_source_caps_witness :
    (∀ ing ∈ [invMilk], 0 ≤ ingQuantity ing) ∧
    ((edmondsKarp (buildFlowNetwork jsMathModel [invMilk] [smallRecipe] "any")
        "s" "t").1).flow ≤
      sourceCapacitySum
        (buildFlowNetwork jsMathModel [invMilk] [smallRecipe] "any").edges := by
  have hq : ∀ ing ∈ [invMilk], 0 ≤ ingQuantity ing := by
    intro ing hing
    have he : ing = invMilk := by simpa using hing
    rw [he]
    with_unfolding_all decide
  exact ⟨hq, C5_flow_le_source_caps jsMathModel [invMilk] [smallRecipe] "any" hq⟩

/-- C10: for every network produced by `buildFlowNetwork` from inventory
ingredients with nonnegative quantities (such networks never connect two
vertices in both directions), after `edmondsKarp network "s" "t"` every
edge of the returned network satisfies `0 ≤ flow ≤ capacity`. -/
theorem C10_flow_within_capacity (M : JsMath) (wi : List WeightedIngredient)
    (recipes : List Recipe) (pmt : String)
    (hq : ∀ ing ∈ wi, 0 ≤ ingQuantity ing) :
    ∀ p ∈ ((edmondsKarp (buildFlowNetwork M wi recipes pmt) "s" "t").2).edges,
      0 ≤ p.2.flow ∧ p.2.flow ≤ p.2.capacity := by
  have h := buildFlowNetwork_edgesOk M wi recipes pmt hq
  exact edmondsKarp_flow_bounds h
    (buildFlowNetwork M wi recipes pmt).vertices "t"

theorem C10_flow_within_capacity_witness :
    (∀ ing ∈ [invMilk], 0 ≤ ingQuantity ing) ∧
    ∀ p ∈ ((edmondsKarp (buildFlowNetwork jsMathModel [invMilk] [smallRecipe]
        "any") "s" "t").2).edges,
      0 ≤ p.2.flow ∧ p.2.flow ≤ p.2.capacity := by
  have hq : ∀ ing ∈ [invMilk], 0 ≤ ingQuantity ing := by
    intro ing hing
    have he : ing = invMilk := by simpa using hing
    rw [he]
    with_unfolding_all decide
  exact ⟨hq, C10_flow_within_capacity jsMathModel [invMilk] [smallRecipe] "any" hq⟩
